import Mathlib

/-!
Verification of the edge-synthesis engine of the school navigation system.

The development shallowly embeds the edge-generation scripts
(`scripts/regenerate_edges.py` and `school-nav-data/generate_all_edges.py`):
node records, the deduplicating edge dictionary, nearest-neighbour candidate
selection, per-floor leaf attachment with outside-node redirection, the
connectivity-repair pass, cross-floor vertical linking, the persisted
directed-row output, and the obstruction check with its integer line
rasterisation.

Modelling conventions:
* Coordinates are rationals (CSV coordinates are finite decimals).
* Distances are represented by their squares.  The scripts compute
  `math.hypot`, but every use of a distance is a comparison (`<`, `<=`,
  sorting keys, argmin) or a value stored per node pair; the square root is
  strictly monotone on nonnegative reals, so all comparisons agree with the
  squared representation and the stored square determines the hypot value.
* Python dictionaries are association lists keeping insertion order; Python's
  stable `sorted` is a stable insertion sort.
* Iteration order over Python `set` objects is unspecified; where the scripts
  iterate over sets (DFS worklists, component stitching) the embedding fixes
  a deterministic list order, which the spec explicitly allows.
-/

namespace SchoolNav

/-- A node record as loaded from the nodes table: identifier, floor label,
type label and planar coordinates. -/
structure Node where
  id : String
  floor : String
  type : String
  x : ℚ
  y : ℚ
deriving DecidableEq, Repr

/-- Default node record used to totalise dictionary lookup (the scripts only
index the node dictionary with identifiers that are present). -/
def defaultNode : Node := ⟨"", "", "", 0, 0⟩

instance : Inhabited Node := ⟨defaultNode⟩

/-- Lookup in the node dictionary (Python: `nodes[a]`). -/
def getNode (nodes : List Node) (i : String) : Node :=
  (nodes.find? (fun n => decide (n.id = i))).getD defaultNode

/-- Squared Euclidean distance between two node records. -/
def dist2 (a b : Node) : ℚ :=
  (a.x - b.x) * (a.x - b.x) + (a.y - b.y) * (a.y - b.y)

/-- Source `euclid(a, b, nodes)`: Euclidean distance between two nodes looked
up by identifier, represented by its square (see the module conventions). -/
def euclid (nodes : List Node) (a b : String) : ℚ :=
  dist2 (getNode nodes a) (getNode nodes b)

/-- Insert `x` into `l` in front of the first element `y` with `le x y`.
Processing a list front-to-back with this insertion yields a stable sort:
an element placed later never overtakes an equal earlier one. -/
def insertBy (le : α → α → Bool) (x : α) : List α → List α
  | [] => [x]
  | y :: ys => if le x y then x :: y :: ys else y :: insertBy le x ys

/-- Stable insertion sort, modelling Python's stable `sorted(...)`. -/
def sortBy (le : α → α → Bool) : List α → List α
  | [] => []
  | x :: xs => insertBy le x (sortBy le xs)

/-- Lexicographic comparison of character lists by code point: the order
Python uses to compare strings. -/
def charListLt : List Char → List Char → Bool
  | [], [] => false
  | [], _ :: _ => true
  | _ :: _, [] => false
  | c :: cs, d :: ds =>
      if c.toNat < d.toNat then true
      else if d.toNat < c.toNat then false
      else charListLt cs ds

/-- Python string strict comparison `a < b` (code-point lexicographic). -/
def strLt (a b : String) : Bool :=
  charListLt a.data b.data

/-- Python string comparison `a <= b`. -/
def strLe (a b : String) : Bool :=
  !(charListLt b.data a.data)

/-- Canonical unordered key of a node pair: Python `tuple(sorted((a, b)))`
under lexicographic string order. -/
def canonKey (a b : String) : String × String :=
  if strLe a b then (a, b) else (b, a)

/-- The edge dictionary: an association list from canonical key to
(squared distance, accessible), keeping Python dict insertion order. -/
abbrev EdgeList := List ((String × String) × (ℚ × Bool))

/-- Dictionary lookup, Python `edges.get(key)`: first (and, by the dict
invariant, only) entry holding the key. -/
def lookupEdge : EdgeList → (String × String) → Option (ℚ × Bool)
  | [], _ => none
  | e :: es, k => if e.1 = k then some e.2 else lookupEdge es k

/-- Assignment to an existing dictionary key (the entry keeps its position). -/
def setEdge : EdgeList → (String × String) → (ℚ × Bool) → EdgeList
  | [], _, _ => []
  | e :: es, k, v => if e.1 = k then (k, v) :: setEdge es k v else e :: setEdge es k v

/-- Source `add_edge(edges, a, b, dist, accessible)`: keep, per unordered
pair, the proposal with strictly smaller weight; an exact tie keeps the
existing entry. -/
def add_edge (edges : EdgeList) (a b : String) (dist : ℚ) (accessible : Bool) :
    EdgeList :=
  match lookupEdge edges (canonKey a b) with
  | none => edges ++ [(canonKey a b, (dist, accessible))]
  | some existing =>
      if dist < existing.1 then setEdge edges (canonKey a b) (dist, accessible)
      else edges

/-- One edge-insertion request, as passed to `add_edge`. -/
structure Proposal where
  a : String
  b : String
  d : ℚ
  accessible : Bool
deriving DecidableEq, Repr

/-- A sequence of insertions through `add_edge`, starting from the empty
dictionary (as `main` does). -/
def applyProposals (ps : List Proposal) : EdgeList :=
  ps.foldl (fun es p => add_edge es p.a p.b p.d p.accessible) []

/-- Winner of a stream of (weight, accessibility) candidates for one pair:
the first candidate of minimal weight (a strict comparison, so exact ties
keep the earlier candidate). -/
def firstMin : Option (ℚ × Bool) → List (ℚ × Bool) → Option (ℚ × Bool)
  | acc, [] => acc
  | none, v :: vs => firstMin (some v) vs
  | some w, v :: vs => firstMin (some (if v.1 < w.1 then v else w)) vs

/-- All candidates a proposal sequence offers for one canonical key, in
order. -/
def proposalsFor (ps : List Proposal) (k : String × String) : List (ℚ × Bool) :=
  (ps.filter (fun p => decide (canonKey p.a p.b = k))).map
    (fun p => (p.d, p.accessible))

/-- Keys held by the edge dictionary. -/
def keysOf (edges : EdgeList) : List (String × String) :=
  edges.map (fun e => e.1)

/-- Source `nearest(target, candidates, nodes, k)`: the distance-sorted
(stably, by squared distance) list of (distance, candidate) pairs, truncated
to `k`. -/
def nearest (target : String) (candidates : List String) (nodes : List Node)
    (k : ℕ) : List (ℚ × String) :=
  (sortBy (fun p q => decide (p.1 ≤ q.1))
    (candidates.map (fun c => (euclid nodes target c, c)))).take k

/-- The candidate selector with a maximum radius: the distance-sorted
candidate list is cut off at the first candidate beyond the radius (the
ascending-order `break` on `MAX_DIST` in `generate_all_edges.py`) and
truncated to `k` (the neighbour-count `break`). -/
def nearestWithin (target : String) (candidates : List String)
    (nodes : List Node) (k : ℕ) (maxRadius : ℚ) : List (ℚ × String) :=
  (((sortBy (fun p q => decide (p.1 ≤ q.1))
      (candidates.map (fun c => (euclid nodes target c, c)))).takeWhile
        (fun p => !(decide (p.1 > maxRadius)))).take k)

/-- Configuration constant of `regenerate_edges.py`. -/
def CORRIDOR_NEIGHBORS : ℕ := 5

/-- Configuration constant of `regenerate_edges.py`. -/
def NODE_TO_CORRIDOR_NEIGHBORS : ℕ := 3

/-- Source `OUTSIDE_NODE_IDS`: identifiers of nodes physically outside the
campus, which must prefer entrances when one is at least as close as the
nearest corridor. -/
def OUTSIDE_NODE_IDS : List String :=
  ["room_gf_10", "room_gf_101", "room_gf_104", "room_gf_108", "room_gf_125",
   "room_gf_102", "room_gf_103", "room_gf_121", "room_gf_120", "room_gf_109",
   "room_gf_105", "room_gf_116", "room_gf_117", "room_gf_106", "room_gf_107",
   "room_gf_118", "room_gf_119"]

/-- Leaf attachment for one non-corridor node (the per-node body of the main
loop of `regenerate_edges.py`, lines 137-156): skip if the floor has no
corridor; an outside node (when the floor has entrances) attaches to its
nearest entrances if the best entrance is at most as far as the best
corridor, and otherwise to its nearest corridors; an ordinary node attaches
to its nearest corridors, stairs marked inaccessible. -/
def leafAttach (nodes : List Node) (outside : List String)
    (corridors entrances : List String) (nid : String) : List Proposal :=
  if corridors = [] then []
  else if nid ∈ outside ∧ entrances ≠ [] then
    match (nearest nid entrances nodes NODE_TO_CORRIDOR_NEIGHBORS).head?,
        (nearest nid corridors nodes NODE_TO_CORRIDOR_NEIGHBORS).head? with
    | some be, some bc =>
        if be.1 ≤ bc.1 then
          (nearest nid entrances nodes NODE_TO_CORRIDOR_NEIGHBORS).map
            (fun p => Proposal.mk nid p.2 p.1 true)
        else
          (nearest nid corridors nodes NODE_TO_CORRIDOR_NEIGHBORS).map
            (fun p => Proposal.mk nid p.2 p.1 true)
    | some _, none =>
        (nearest nid entrances nodes NODE_TO_CORRIDOR_NEIGHBORS).map
          (fun p => Proposal.mk nid p.2 p.1 true)
    | none, _ =>
        (nearest nid corridors nodes NODE_TO_CORRIDOR_NEIGHBORS).map
          (fun p => Proposal.mk nid p.2 p.1 true)
  else
    (nearest nid corridors nodes NODE_TO_CORRIDOR_NEIGHBORS).map
      (fun p => Proposal.mk nid p.2 p.1 (decide ((getNode nodes nid).type ≠ "stair")))

/-- Intra-floor adjacency pairs derived from the edge dictionary: both
directions of every edge whose endpoints are on the same floor
(`connect_components`, lines 71-76). -/
def buildAdj (edges : EdgeList) (nodes : List Node) : List (String × String) :=
  edges.foldl
    (fun acc e =>
      if (getNode nodes e.1.1).floor = (getNode nodes e.1.2).floor then
        acc ++ [(e.1.1, e.1.2), (e.1.2, e.1.1)]
      else acc) []

/-- Neighbour list of a node in the adjacency view (`adj.get(u, [])`). -/
def neighborsOf (adj : List (String × String)) (u : String) : List String :=
  (adj.filter (fun p => decide (p.1 = u))).map (fun p => p.2)

/-- One sweep over the neighbour list of a popped node: unvisited neighbours
are pushed on the stack and added to the component (the inner for-loop of
the DFS in `connect_components`).  The bundled invariants feed the fuel
bound and the component lemmas. -/
def pushNew (vs : List String) (stack comp : List String) :
    { sc : List String × List String //
        (∀ x ∈ comp, x ∈ sc.2) ∧
        (∀ x ∈ sc.2, x ∈ comp ∨ x ∈ vs) ∧
        (∀ v ∈ vs, v ∈ sc.2) ∧
        (∀ x ∈ stack, x ∈ sc.1) ∧
        (∀ x ∈ sc.1, x ∈ stack ∨ x ∈ sc.2) ∧
        (∀ univ : List String, (∀ v ∈ vs, v ∈ univ) →
          (univ.filter (fun x => decide (x ∉ sc.2))).length + sc.1.length ≤
            (univ.filter (fun x => decide (x ∉ comp))).length + stack.length) } :=
  match vs with
  | [] =>
    ⟨(stack, comp), fun _ hx => hx, fun _ hx => Or.inl hx, by simp,
      fun _ hx => hx, fun _ hx => Or.inl hx, fun _ _ => Nat.le_refl _⟩
  | v :: vs =>
      if hv : v ∈ comp then
        let r := pushNew vs stack comp
        ⟨r.1, r.2.1,
          fun x hx => (r.2.2.1 x hx).imp id (List.mem_cons_of_mem v),
          fun w hw => by
            rcases List.mem_cons.mp hw with rfl | hw
            · exact r.2.1 w hv
            · exact r.2.2.2.1 w hw,
          r.2.2.2.2.1,
          r.2.2.2.2.2.1,
          fun univ huniv =>
            r.2.2.2.2.2.2 univ (fun w hw => huniv w (List.mem_cons_of_mem v hw))⟩
      else
        let r := pushNew vs (v :: stack) (v :: comp)
        ⟨r.1,
          fun x hx => r.2.1 x (List.mem_cons_of_mem v hx),
          fun x hx => by
            rcases r.2.2.1 x hx with h | h
            · rcases List.mem_cons.mp h with rfl | h
              · exact Or.inr (List.mem_cons_self _ _)
              · exact Or.inl h
            · exact Or.inr (List.mem_cons_of_mem v h),
          fun w hw => by
            rcases List.mem_cons.mp hw with rfl | hw
            · exact r.2.1 w (List.mem_cons_self _ _)
            · exact r.2.2.2.1 w hw,
          fun x hx => r.2.2.2.2.1 x (List.mem_cons_of_mem v hx),
          fun x hx => by
            rcases r.2.2.2.2.2.1 x hx with h | h
            · rcases List.mem_cons.mp h with rfl | h
              · exact Or.inr (r.2.1 x (List.mem_cons_self _ _))
              · exact Or.inl h
            · exact Or.inr h,
          fun univ huniv => by
            have h6 := r.2.2.2.2.2.2 univ
              (fun w hw => huniv w (List.mem_cons_of_mem v hw))
            have hsb : List.Sublist
                (univ.filter (fun x => decide (x ∉ v :: comp)))
                (univ.filter (fun x => decide (x ∉ comp))) := by
              refine List.monotone_filter_right _ ?_
              intro a ha
              simp only [decide_eq_true_eq, List.mem_cons, not_or] at *
              exact ha.2
            have hvq : v ∈ univ.filter (fun x => decide (x ∉ comp)) :=
              List.mem_filter.mpr ⟨huniv v (List.mem_cons_self _ _), by simp [hv]⟩
            have hvp : v ∉ univ.filter (fun x => decide (x ∉ v :: comp)) := by
              intro hmem
              have := (List.mem_filter.mp hmem).2
              simp at this
            have hlt : (univ.filter (fun x => decide (x ∉ v :: comp))).length <
                (univ.filter (fun x => decide (x ∉ comp))).length := by
              rcases Nat.lt_or_ge (univ.filter (fun x => decide (x ∉ v :: comp))).length
                  (univ.filter (fun x => decide (x ∉ comp))).length with h1 | h1
              · exact h1
              · exact absurd
                  (hsb.eq_of_length (Nat.le_antisymm hsb.length_le h1) ▸ hvq) hvp
            calc (univ.filter (fun x => decide (x ∉ r.1.2))).length + r.1.1.length
                ≤ (univ.filter (fun x => decide (x ∉ v :: comp))).length +
                    (v :: stack).length := h6
              _ = (univ.filter (fun x => decide (x ∉ v :: comp))).length +
                    stack.length + 1 := by simp [List.length_cons]; omega
              _ ≤ (univ.filter (fun x => decide (x ∉ comp))).length + stack.length := by
                    omega⟩

/-- Fuel that always suffices to drain the DFS stack: potential new component
members plus the current stack size. -/
def dfsFuel (adj : List (String × String)) (stack comp : List String) : ℕ :=
  ((adj.map (fun p => p.2)).filter (fun x => decide (x ∉ comp))).length +
    stack.length

/-- Fuelled depth-first traversal (the stack loop of `connect_components`):
pop a node, push its unvisited neighbours.  At the canonical fuel the
zero-fuel branch is unreachable (the measure argument in `pushNew`). -/
def dfsGo (adj : List (String × String)) : ℕ → List String → List String → List String
  | _, [], comp => comp
  | 0, _ :: _, comp => comp
  | fuel + 1, u :: stack, comp =>
      let r := pushNew (neighborsOf adj u) stack comp
      dfsGo adj fuel r.1.1 r.1.2

/-- Depth-first component collection from a start configuration. -/
def dfsRun (adj : List (String × String)) (stack comp : List String) :
    List String :=
  dfsGo adj (dfsFuel adj stack comp) stack comp

/-- Fuelled while-remaining loop computing the floor's components
(`connect_components`, lines 78-91); the fuel is the length of the remaining
list, which strictly decreases. -/
def computeComponentsGo (adj : List (String × String)) :
    ℕ → List String → List (List String)
  | _, [] => []
  | 0, _ :: _ => []
  | fuel + 1, start :: rest =>
      let comp := dfsRun adj [start] [start]
      comp :: computeComponentsGo adj fuel (rest.filter (fun x => decide (x ∉ comp)))

/-- Connected components of the floor's node list under the adjacency view
(Python set iteration order fixed as list order). -/
def computeComponents (adj : List (String × String)) (l : List String) :
    List (List String) :=
  computeComponentsGo adj l.length l

/-- Body of the double loop of `connect_components` (lines 106-110): keep the
running best pair unless the new candidate is strictly closer. -/
def bpStep (nodes : List Node) (a : String)
    (best : Option (ℚ × String × String)) (b : String) :
    Option (ℚ × String × String) :=
  match best with
  | none => some (euclid nodes a b, a, b)
  | some t =>
      if euclid nodes a b < t.1 then some (euclid nodes a b, a, b)
      else some t

/-- Best (minimum squared-distance) connecting pair between the stitched base
and the next component; the first-encountered pair wins exact ties
(`connect_components`, lines 105-110). -/
def bestPair (nodes : List Node) (base subset : List String) :
    Option (ℚ × String × String) :=
  base.foldl (fun best a => subset.foldl (bpStep nodes a) best) none

/-- Corridor representatives of a component: its corridor members, or the
whole component when it has none (`connect_components`, lines 98-101). -/
def compReps (corridors : List String) (comp : List String) : List String :=
  let subset := comp.filter (fun n => decide (n ∈ corridors))
  if subset = [] then comp else subset

/-- Source `connect_components(floor_nodes, edges, nodes)`: compute the
floor's components from the intra-floor adjacency of the current edge set,
then stitch each further component to the accumulated base through the best
connecting pair, preferring corridor nodes. -/
def stitchFold (nodes : List Node) (subsets : List (List String))
    (st : List String × EdgeList) : List String × EdgeList :=
  subsets.foldl
    (fun st subset =>
      match bestPair nodes st.1 subset with
      | none => st
      | some t =>
          (st.1 ++ subset,
            add_edge st.2 t.2.1 t.2.2 (euclid nodes t.2.1 t.2.2) true))
    st

def connect_components (floor_nodes : List String) (edges : EdgeList)
    (nodes : List Node) : EdgeList :=
  if (computeComponents (buildAdj edges nodes) floor_nodes).length ≤ 1 then
    edges
  else
    (stitchFold nodes
      (((computeComponents (buildAdj edges nodes) floor_nodes).map
        (compReps (floor_nodes.filter
          (fun n => decide ((getNode nodes n).type = "corridor"))))).tail)
      ((((computeComponents (buildAdj edges nodes) floor_nodes).map
        (compReps (floor_nodes.filter
          (fun n => decide ((getNode nodes n).type = "corridor"))))).headI),
        edges)).2

/-- Character-list test: does the second list start with the first? -/
def startsWithChars : List Char → List Char → Bool
  | [], _ => true
  | _ :: _, [] => false
  | p :: ps, c :: cs => p == c && startsWithChars ps cs

/-- Character-list substring test at any position. -/
def hasSubChars (pat : List Char) : List Char → Bool
  | [] => startsWithChars pat []
  | c :: cs => startsWithChars pat (c :: cs) || hasSubChars pat cs

/-- Python substring containment `pat in hay`. -/
def strContains (hay pat : String) : Bool :=
  hasSubChars pat.data hay.data

/-- Semantics of the script's identifier pattern.  The source writes the raw
string literal `r"(\\d+)$"`, so the compiled regular expression is
`(\\d+)$`: one literal backslash character followed by one or more literal
letter-d characters, anchored at the end of the string.  A search succeeds
exactly when the identifier ends with a backslash followed by letter-d
characters, and the captured group is that suffix.  (The pattern `\d+` for a
digit suffix would have required a single backslash in the raw string.) -/
def stairKeyMatch (nid : String) : Option String :=
  let rev := nid.data.reverse
  let ds := rev.takeWhile (fun c => c == 'd')
  if ds = [] then none
  else
    match rev.drop ds.length with
    | c :: _ =>
        if c = '\\' then some (String.mk ('\\' :: List.replicate ds.length 'd'))
        else none
    | [] => none

/-- Source `key = m.group(1) if m else nid`. -/
def stairKey (nid : String) : String :=
  (stairKeyMatch nid).getD nid

/-- Python `defaultdict(list)` grouping, preserving key insertion order and
per-key append order. -/
def groupByKey (key : String → String) (ids : List String) :
    List (String × List String) :=
  ids.foldl
    (fun gs i =>
      if gs.any (fun g => decide (g.1 = key i)) then
        gs.map (fun g => if g.1 = key i then (g.1, g.2 ++ [i]) else g)
      else gs ++ [(key i, [i])])
    []

/-- Stair identifiers grouped by the extracted key (vertical-link grouping of
`regenerate_edges.py`, lines 162-169; membership test is the substring test
`"stair" in data["type"]`). -/
def stairGroupsOf (nodes : List Node) : List (String × List String) :=
  groupByKey stairKey
    ((nodes.filter (fun n => strContains n.type "stair")).map (fun n => n.id))

/-- Pairwise combinations in `itertools.combinations` order. -/
def combinations2 : List α → List (α × α)
  | [] => []
  | x :: xs => xs.map (fun y => (x, y)) ++ combinations2 xs

/-- Vertical stair linking (`regenerate_edges.py`, lines 174-178): every
stair group of size at least two gets pairwise edges with accessibility
false and planar distance as weight. -/
def verticalStairStep (nodes : List Node) (edges : EdgeList) : EdgeList :=
  (stairGroupsOf nodes).foldl
    (fun es g =>
      if g.2.length < 2 then es
      else
        (combinations2 g.2).foldl
          (fun es p => add_edge es p.1 p.2 (euclid nodes p.1 p.2) false) es)
    edges

/-- One persisted directed row.  The distance field keeps the exact stored
weight; the script's two-decimal formatting applies the same function to the
one stored value of a pair, so both directions always render identically. -/
structure Row where
  fromId : String
  toId : String
  distance : ℚ
  accessible : Bool
deriving DecidableEq, Repr

/-- Directed rows of the edge dictionary: each canonical edge contributes its
two directions with the same weight and accessibility
(`regenerate_edges.py`, lines 187-190). -/
def rowsOf : EdgeList → List Row
  | [] => []
  | e :: es =>
      ⟨e.1.1, e.1.2, e.2.1, e.2.2⟩ :: ⟨e.1.2, e.1.1, e.2.1, e.2.2⟩ :: rowsOf es

/-- Lexicographic (from, to) row order used by the persisted sort. -/
def rowLe (r s : Row) : Bool :=
  strLt r.fromId s.fromId ||
    (decide (r.fromId = s.fromId) && strLe r.toId s.toId)

/-- Sorted persisted output: `rows.sort(key=lambda r: (r["from"], r["to"]))`. -/
def sortedRows (edges : EdgeList) : List Row :=
  sortBy rowLe (rowsOf edges)

/-- Truncation toward zero: Python `int()` applied to a real scalar. -/
def intTrunc (q : ℚ) : ℤ :=
  if 0 ≤ q then ⌊q⌋ else ⌈q⌉

/-- Inner Bresenham loop of `has_collision` (lines 144-152): one pixel per
dominant-axis step, un-swapping steep coordinates.  The source keeps a float
error term starting at dx/2 and adding or subtracting integers, so every
value it takes is a half-integer of small magnitude, exact in binary
floating point; the model tracks twice the error as an integer (`e2`), and
the only use of the error, the comparison `error < 0`, agrees. -/
def bresLoop (dx dy ystep : ℤ) (steep : Bool) :
    ℕ → ℤ → ℤ → ℤ → List (ℤ × ℤ)
  | 0, _, _, _ => []
  | n + 1, x, y, e2 =>
      if e2 - 2 * dy < 0 then
        (if steep then (y, x) else (x, y)) ::
          bresLoop dx dy ystep steep n (x + 1) (y + ystep) (e2 - 2 * dy + 2 * dx)
      else
        (if steep then (y, x) else (x, y)) ::
          bresLoop dx dy ystep steep n (x + 1) y (e2 - 2 * dy)

/-- Endpoint order swap of the Bresenham normalisation (`if x1 > x2: swap`),
on already steep-swapped points. -/
def orderPts (p1 p2 : ℤ × ℤ) : (ℤ × ℤ) × (ℤ × ℤ) :=
  if p1.1 > p2.1 then (p2, p1) else (p1, p2)

/-- The pixel loop on order-normalised endpoints: dx = q2.1 - q1.1,
dy = abs(q2.2 - q1.2), error = dx/2 (tracked doubled), one pixel per value
of `range(q1.1, q2.1 + 1)`. -/
def bresRun (q1 q2 : ℤ × ℤ) (steep : Bool) : List (ℤ × ℤ) :=
  bresLoop (q2.1 - q1.1) ((q2.2 - q1.2).natAbs)
    (if q1.2 < q2.2 then 1 else -1) steep
    ((q2.1 - q1.1).toNat + 1) q1.1 q1.2 (q2.1 - q1.1)

/-- The integer line rasterisation of `has_collision` (lines 128-152):
steep swap, endpoint order swap, then the pixel loop over
`range(x1, x2 + 1)`. -/
def rasterize (x1 y1 x2 y2 : ℤ) : List (ℤ × ℤ) :=
  if (y2 - y1).natAbs > (x2 - x1).natAbs then
    bresRun (orderPts (y1, x1) (y2, x2)).1 (orderPts (y1, x1) (y2, x2)).2 true
  else
    bresRun (orderPts (x1, y1) (x2, y2)).1 (orderPts (x1, y1) (x2, y2)).2 false

/-- Consecutive integers from a starting value (the dominant-axis values of
`range(x1, x2 + 1)`). -/
def rangeFrom (x : ℤ) : ℕ → List ℤ
  | 0 => []
  | n + 1 => x :: rangeFrom (x + 1) n

/-- Number of sub-axis advances the Bresenham loop performs over n steps,
mirroring its error-term branches. -/
def advCount (dx dy : ℤ) : ℕ → ℤ → ℕ
  | 0, _ => 0
  | n + 1, e2 =>
      if e2 - 2 * dy < 0 then advCount dx dy n (e2 - 2 * dy + 2 * dx) + 1
      else advCount dx dy n (e2 - 2 * dy)

/-- A pixel value: the single channel of a grayscale image or an RGB
triple. -/
inductive PixelVal where
  | gray (v : ℚ)
  | rgb (r g b : ℚ)
deriving DecidableEq, Repr

/-- A decoded raster image with its dimensions; `pix` is indexed as
`pixels[px, py]`. -/
structure Img where
  w : ℤ
  h : ℤ
  pix : ℤ → ℤ → PixelVal

/-- Brightness of a pixel: mean of the colour channels for RGB, the single
channel for grayscale (lines 173-178). -/
def brightness : PixelVal → ℚ
  | .gray v => v
  | .rgb r g b => (r + g + b) / 3

/-- Source `DARK_THRESHOLD` (a pixel is dark below this brightness). -/
def DARK_THRESHOLD : ℚ := 100

/-- In-bounds test of the sampling loop (line 171). -/
def inBoundsPix (img : Img) (p : ℤ × ℤ) : Bool :=
  decide (0 ≤ p.1) && decide (p.1 < img.w) && decide (0 ≤ p.2) &&
    decide (p.2 < img.h)

/-- The dark-run scanner of `has_collision` (lines 163-188): count
consecutive dark in-bounds pixels, reset on a bright in-bounds pixel, skip
out-of-bounds samples, and declare a wall when the count reaches the minimum
run length (3 in the source). -/
def scanRun (img : Img) (minRun : ℕ) : List (ℤ × ℤ) → ℕ → Bool
  | [], _ => false
  | p :: rest, hits =>
      if inBoundsPix img p then
        if brightness (img.pix p.1 p.2) < DARK_THRESHOLD then
          if minRun ≤ hits + 1 then true else scanRun img minRun rest (hits + 1)
        else scanRun img minRun rest 0
      else scanRun img minRun rest hits

/-- Margin-trimmed sample pixels: `path_pixels[margin:-margin]` with margin
5, or the full path when it has at most 10 pixels (lines 157-161). -/
def sampledPixels (a b : Node) (sx sy : ℚ) : List (ℤ × ℤ) :=
  let path := rasterize (intTrunc (a.x * sx)) (intTrunc (a.y * sy))
    (intTrunc (b.x * sx)) (intTrunc (b.y * sy))
  if path.length ≤ 10 then path else (path.drop 5).take (path.length - 10)

/-- Endpoint out-of-bounds test of the pre-check (line 121). -/
def endpointOOB (img : Img) (x y : ℤ) : Bool :=
  decide (x < 0) || decide (img.w ≤ x) || decide (y < 0) || decide (img.h ≤ y)

/-- Source `has_collision(a, b, image, scale)`: no image means no collision;
both endpoints off the image means no collision; otherwise scan the
margin-trimmed rasterised path for a run of three consecutive dark
pixels. -/
def has_collision (a b : Node) (image : Option Img) (sx sy : ℚ) : Bool :=
  match image with
  | none => false
  | some img =>
      if endpointOOB img (intTrunc (a.x * sx)) (intTrunc (a.y * sy)) &&
          endpointOOB img (intTrunc (b.x * sx)) (intTrunc (b.y * sy)) then
        false
      else scanRun img 3 (sampledPixels a b sx sy) 0

/-- A pixel the scanner counts as dark: inside the image and with brightness
below the darkness threshold. -/
def darkAt (img : Img) (p : ℤ × ℤ) : Bool :=
  inBoundsPix img p && decide (brightness (img.pix p.1 p.2) < DARK_THRESHOLD)

/-- Spec-side blockage predicate of claim C6: somewhere in the sampled pixel
list there is a run of at least three consecutive dark pixels. -/
def DarkRun (img : Img) (l : List (ℤ × ℤ)) : Prop :=
  ∃ l1 p1 p2 p3 l2, l = l1 ++ p1 :: p2 :: p3 :: l2 ∧
    darkAt img p1 = true ∧ darkAt img p2 = true ∧ darkAt img p3 = true

/-- One step along the adjacency pair list. -/
def adjStep (adj : List (String × String)) (a b : String) : Prop :=
  (a, b) ∈ adj

/-- Reachability along the adjacency pair list. -/
def Reach (adj : List (String × String)) (a b : String) : Prop :=
  Relation.ReflTransGen (adjStep adj) a b

/-- The edge dictionary holds an edge between two nodes (in canonical key
position). -/
def hasEdge (edges : EdgeList) (a b : String) : Prop :=
  (lookupEdge edges (canonKey a b)).isSome = true

/-- Floor-local adjacency of the produced edge set: an edge between the two
nodes whose endpoints are on the same floor. -/
def floorAdj (nodes : List Node) (edges : EdgeList) (a b : String) : Prop :=
  hasEdge edges a b ∧ (getNode nodes a).floor = (getNode nodes b).floor

/-- Connectivity in the subgraph induced by floor-local edges. -/
def FloorConnected (nodes : List Node) (edges : EdgeList) (a b : String) :
    Prop :=
  Relation.ReflTransGen (floorAdj nodes edges) a b

/-- One edge dictionary extends another: every key present in the first is
still present (the repair pass only inserts or re-weights entries). -/
def edgeExtends (E1 E2 : EdgeList) : Prop :=
  ∀ k, (lookupEdge E1 k).isSome = true → (lookupEdge E2 k).isSome = true

theorem insertBy_perm (le : α → α → Bool) (x : α) :
    ∀ l : List α, List.Perm (insertBy le x l) (x :: l)
  | [] => List.Perm.refl _
  | y :: ys => by
    unfold insertBy
    split
    · exact List.Perm.refl _
    · exact ((insertBy_perm le x ys).cons y).trans (List.Perm.swap _ _ _)

theorem sortBy_perm (le : α → α → Bool) : ∀ l : List α, List.Perm (sortBy le l) l
  | [] => List.Perm.refl _
  | x :: xs => by
    unfold sortBy
    exact (insertBy_perm le x (sortBy le xs)).trans ((sortBy_perm le xs).cons x)

theorem sortBy_length (le : α → α → Bool) (l : List α) :
    (sortBy le l).length = l.length :=
  (sortBy_perm le l).length_eq

theorem mem_sortBy (le : α → α → Bool) (l : List α) (a : α) :
    a ∈ sortBy le l ↔ a ∈ l :=
  (sortBy_perm le l).mem_iff

theorem mem_insertBy (le : α → α → Bool) (x : α) (l : List α) (a : α) :
    a ∈ insertBy le x l ↔ a = x ∨ a ∈ l := by
  rw [(insertBy_perm le x l).mem_iff, List.mem_cons]

theorem insertBy_sorted (le : α → α → Bool)
    (htot : ∀ a b, le a b = false → le b a = true)
    (htr : ∀ a b c, le a b = true → le b c = true → le a c = true)
    (x : α) :
    ∀ l : List α, l.Pairwise (fun a b => le a b = true) →
      (insertBy le x l).Pairwise (fun a b => le a b = true)
  | [], _ => List.pairwise_singleton _ _
  | y :: ys, h => by
    rcases List.pairwise_cons.mp h with ⟨hy, hys⟩
    unfold insertBy
    split
    case isTrue hxy =>
      refine List.pairwise_cons.mpr ⟨?_, h⟩
      intro z hz
      rcases List.mem_cons.mp hz with rfl | hz
      · exact hxy
      · exact htr x y z hxy (hy z hz)
    case isFalse hxy =>
      refine List.pairwise_cons.mpr ⟨?_, insertBy_sorted le htot htr x ys hys⟩
      intro z hz
      rcases (mem_insertBy le x ys z).mp hz with rfl | hz
      · have hzy : le z y = false := by
          cases h' : le z y
          · rfl
          · exact absurd h' hxy
        exact htot z y hzy
      · exact hy z hz

theorem sortBy_sorted (le : α → α → Bool)
    (htot : ∀ a b, le a b = false → le b a = true)
    (htr : ∀ a b c, le a b = true → le b c = true → le a c = true) :
    ∀ l : List α, (sortBy le l).Pairwise (fun a b => le a b = true)
  | [] => List.Pairwise.nil
  | x :: xs => by
    unfold sortBy
    exact insertBy_sorted le htot htr x (sortBy le xs) (sortBy_sorted le htot htr xs)

theorem insertBy_filter (le : α → α → Bool) (p : α → Bool)
    (hcls : ∀ a b, p a = true → p b = true → le a b = true)
    (x : α) (hx : p x = true) :
    ∀ l : List α, (insertBy le x l).filter p = x :: l.filter p
  | [] => by simp [insertBy, hx]
  | y :: ys => by
    unfold insertBy
    split
    case isTrue hxy => simp [List.filter, hx]
    case isFalse hxy =>
      have hpy : p y = false := by
        cases hy : p y
        · rfl
        · exact absurd (hcls x y hx hy) (Bool.eq_false_iff.mp (Bool.eq_false_iff.mpr hxy))
      simp [List.filter, hpy, insertBy_filter le p hcls x hx ys]

theorem insertBy_filter_neg (le : α → α → Bool) (p : α → Bool)
    (x : α) (hx : p x = false) :
    ∀ l : List α, (insertBy le x l).filter p = l.filter p
  | [] => by simp [insertBy, hx]
  | y :: ys => by
    unfold insertBy
    split
    · simp [List.filter, hx]
    · cases hy : p y <;>
        simp [List.filter, hy, insertBy_filter_neg le p x hx ys]

/-- Stability of the sort: the elements of any equivalence class of the sort
key (any class on which `le` always holds) come out in their input order. -/
theorem sortBy_filter (le : α → α → Bool) (p : α → Bool)
    (hcls : ∀ a b, p a = true → p b = true → le a b = true) :
    ∀ l : List α, (sortBy le l).filter p = l.filter p
  | [] => rfl
  | x :: xs => by
    unfold sortBy
    cases hx : p x
    · rw [insertBy_filter_neg le p x hx, sortBy_filter le p hcls xs]
      simp [List.filter, hx]
    · rw [insertBy_filter le p hcls x hx, sortBy_filter le p hcls xs]
      simp [List.filter, hx]

theorem lookupEdge_append_single (key : String × String) (v : ℚ × Bool)
    (k : String × String) :
    ∀ es : EdgeList, lookupEdge (es ++ [(key, v)]) k =
      (lookupEdge es k).or (if key = k then some v else none)
  | [] => by
    by_cases h : key = k <;> simp [lookupEdge, h]
  | e :: es => by
    by_cases h : e.1 = k <;>
      simp [lookupEdge, h, lookupEdge_append_single key v k es]

theorem lookupEdge_setEdge (key : String × String) (v : ℚ × Bool)
    (k : String × String) :
    ∀ es : EdgeList, lookupEdge (setEdge es key v) k =
      if key = k then (lookupEdge es k).map (fun _ => v) else lookupEdge es k
  | [] => by
    by_cases h : key = k <;> simp [lookupEdge, setEdge, h]
  | e :: es => by
    have ih := lookupEdge_setEdge key v k es
    by_cases hek : e.1 = key
    · by_cases hkk : key = k
      · subst hkk; simp [lookupEdge, setEdge, hek]
      · have hne : ¬ e.1 = k := by rw [hek]; exact hkk
        simp [lookupEdge, setEdge, hek, hkk, hne, ih]
    · by_cases hk : e.1 = k
      · have hkk : ¬ key = k := by rw [← hk]; exact fun h => hek h.symm
        have hkk' : ¬ k = key := fun h => hkk h.symm
        simp [lookupEdge, setEdge, hek, hk, hkk, hkk']
      · simp [lookupEdge, setEdge, hek, hk, ih]

/-- Effect of one `add_edge` call on lookups: the touched key receives the
better of old and new (strictly smaller weight wins, an exact tie keeps the
old value); other keys are untouched. -/
theorem lookupEdge_add_edge (es : EdgeList) (a b : String) (d : ℚ) (acc : Bool)
    (k : String × String) :
    lookupEdge (add_edge es a b d acc) k =
      if canonKey a b = k then
        match lookupEdge es k with
        | none => some (d, acc)
        | some w => if d < w.1 then some (d, acc) else some w
      else lookupEdge es k := by
  cases hl : lookupEdge es (canonKey a b) with
  | none =>
    simp only [add_edge, hl]
    rw [lookupEdge_append_single]
    by_cases hk : canonKey a b = k
    · subst hk; simp [hl]
    · simp only [hk, if_neg, ite_false]
      cases lookupEdge es k <;> simp
  | some w =>
    simp only [add_edge, hl]
    by_cases hd : d < w.1
    · rw [if_pos hd, lookupEdge_setEdge]
      by_cases hk : canonKey a b = k
      · subst hk; simp [hl, hd]
      · simp [hk]
    · rw [if_neg hd]
      by_cases hk : canonKey a b = k
      · subst hk; simp [hl, hd]
      · simp [hk]

theorem firstMin_nil (o : Option (ℚ × Bool)) : firstMin o [] = o := by
  cases o <;> rfl

theorem lookup_foldl_add_edge (k : String × String) :
    ∀ (ps : List Proposal) (es : EdgeList),
      lookupEdge (ps.foldl (fun es p => add_edge es p.a p.b p.d p.accessible) es) k
        = firstMin (lookupEdge es k) (proposalsFor ps k)
  | [], es => by
    simp [proposalsFor, firstMin_nil]
  | p :: ps, es => by
    simp only [List.foldl_cons]
    rw [lookup_foldl_add_edge k ps, lookupEdge_add_edge]
    unfold proposalsFor
    by_cases hk : canonKey p.a p.b = k
    · simp only [List.filter_cons, hk, List.map_cons, if_pos, decide_eq_true_eq]
      cases hl : lookupEdge es k with
      | none => simp [firstMin]
      | some w =>
        by_cases hd : p.d < w.1 <;> simp [firstMin, hd]
    · simp only [List.filter_cons, decide_eq_true_eq, hk, ite_false, if_neg]

theorem firstMin_le_start :
    ∀ (vs : List (ℚ × Bool)) (w v : ℚ × Bool),
      firstMin (some w) vs = some v → v.1 ≤ w.1 ∧ ∀ u ∈ vs, v.1 ≤ u.1
  | [], w, v => by
    intro h
    simp only [firstMin, Option.some.injEq] at h
    subst h
    exact ⟨le_refl _, by simp⟩
  | u :: us, w, v => by
    intro h
    simp only [firstMin] at h
    rcases firstMin_le_start us _ v h with ⟨h1, h2⟩
    by_cases hu : u.1 < w.1
    · rw [if_pos hu] at h1
      refine ⟨le_trans h1 (le_of_lt hu), ?_⟩
      intro z hz
      rcases List.mem_cons.mp hz with rfl | hz
      · exact h1
      · exact h2 z hz
    · rw [if_neg hu] at h1
      refine ⟨h1, ?_⟩
      intro z hz
      rcases List.mem_cons.mp hz with rfl | hz
      · exact le_trans h1 (le_of_not_lt hu)
      · exact h2 z hz

theorem firstMin_le :
    ∀ (vs : List (ℚ × Bool)) (v : ℚ × Bool),
      firstMin none vs = some v → ∀ u ∈ vs, v.1 ≤ u.1
  | [], v => by intro h; cases h
  | u :: us, v => by
    intro h z hz
    simp only [firstMin] at h
    rcases firstMin_le_start us u v h with ⟨h1, h2⟩
    rcases List.mem_cons.mp hz with rfl | hz
    · exact h1
    · exact h2 z hz

theorem keysOf_setEdge (key : String × String) (v : ℚ × Bool) :
    ∀ es : EdgeList, keysOf (setEdge es key v) = keysOf es
  | [] => rfl
  | e :: es => by
    have ih := keysOf_setEdge key v es
    by_cases h : e.1 = key
    · simp only [setEdge, if_pos h, keysOf, List.map_cons] at *
      rw [ih, h]
    · simp only [setEdge, if_neg h, keysOf, List.map_cons] at *
      rw [ih]

theorem lookupEdge_none_iff (k : String × String) :
    ∀ es : EdgeList, lookupEdge es k = none ↔ k ∉ keysOf es
  | [] => by simp [lookupEdge, keysOf]
  | e :: es => by
    have ih := lookupEdge_none_iff k es
    by_cases h : e.1 = k
    · simp [lookupEdge, keysOf, h]
    · simp only [lookupEdge, if_neg h, keysOf, List.map_cons, List.mem_cons]
      rw [ih]
      unfold keysOf
      constructor
      · intro hn hor
        rcases hor with heq | hm
        · exact h heq.symm
        · exact hn hm
      · intro hn hm
        exact hn (Or.inr hm)

theorem keysOf_add_edge (es : EdgeList) (a b : String) (d : ℚ) (acc : Bool) :
    keysOf (add_edge es a b d acc) = keysOf es ∨
      (keysOf (add_edge es a b d acc) = keysOf es ++ [canonKey a b] ∧
        canonKey a b ∉ keysOf es) := by
  unfold add_edge
  cases hl : lookupEdge es (canonKey a b) with
  | none =>
    refine Or.inr ⟨?_, (lookupEdge_none_iff _ es).mp hl⟩
    simp [keysOf]
  | some w =>
    by_cases hd : d < w.1
    · refine Or.inl ?_
      dsimp only
      rw [if_pos hd]
      exact keysOf_setEdge _ _ es
    · refine Or.inl ?_
      dsimp only
      rw [if_neg hd]

theorem nodup_keys_add_edge (es : EdgeList) (a b : String) (d : ℚ) (acc : Bool)
    (h : (keysOf es).Nodup) : (keysOf (add_edge es a b d acc)).Nodup := by
  rcases keysOf_add_edge es a b d acc with heq | ⟨heq, hnm⟩
  · rw [heq]; exact h
  · rw [heq]
    simp [List.nodup_append, h, hnm]

theorem nodup_keys_foldl_add_edge :
    ∀ (ps : List Proposal) (es : EdgeList), (keysOf es).Nodup →
      (keysOf (ps.foldl (fun es p => add_edge es p.a p.b p.d p.accessible) es)).Nodup
  | [], es, h => h
  | p :: ps, es, h => by
    simp only [List.foldl_cons]
    exact nodup_keys_foldl_add_edge ps _ (nodup_keys_add_edge es _ _ _ _ h)

/-- Claim C2: after any sequence of edge insertions through `add_edge`
(starting from the empty dictionary), the edge set holds at most one
canonical edge per unordered node pair; the entry held for a pair is exactly
the first proposal of minimal weight for that pair — so the lowest proposed
weight wins, and an exact-weight tie keeps the first-seen edge and its
accessibility. -/
theorem add_edge_dedup_min (ps : List Proposal) :
    (keysOf (applyProposals ps)).Nodup ∧
    (∀ k, lookupEdge (applyProposals ps) k = firstMin none (proposalsFor ps k)) ∧
    (∀ k v, lookupEdge (applyProposals ps) k = some v →
      ∀ u ∈ proposalsFor ps k, v.1 ≤ u.1) := by
  refine ⟨nodup_keys_foldl_add_edge ps [] List.Pairwise.nil, fun k => ?_, ?_⟩
  · exact lookup_foldl_add_edge k ps []
  · intro k v hv u hu
    unfold applyProposals at hv
    rw [lookup_foldl_add_edge k ps []] at hv
    exact firstMin_le _ v hv u hu

/-- Witness for claim C2: three proposals on the same unordered pair (the
two orientations count as one pair); the held entry is the first minimal
one, and its weight is at most that of the first proposal. -/
theorem add_edge_dedup_min_witness :
    lookupEdge
        (applyProposals
          [⟨"a", "b", 4, true⟩, ⟨"b", "a", 2, false⟩, ⟨"a", "b", 2, true⟩])
        ("a", "b") = some (2, false) ∧
      (2 : ℚ) ≤ 4 := by
  constructor
  · rfl
  · have h :=
      (add_edge_dedup_min
        [⟨"a", "b", 4, true⟩, ⟨"b", "a", 2, false⟩, ⟨"a", "b", 2, true⟩]).2.2
        ("a", "b") (2, false) (by rfl) (4, true) (by decide)
    exact h


/-- Claim C1 (code-bug evidence): on the spec's own stair-linking scenario —
`stair_gf_1` on floor G and `stair_ff_1` on floor 1, sharing numeric suffix
1 — the vertical-linking step of `regenerate_edges.py` produces no edge at
all.  The raw-string pattern `(\\d+)$` matches a literal backslash followed
by letter-d characters and never a numeric suffix, so each stair falls back
to its full identifier as group key, every group is a singleton, and the
pairwise linking loop is skipped, contradicting the module's own docstring
("Connect stairs that share the same numeric suffix ... across all
floors"). -/
theorem verticalStairStep_adds_no_edge_on_scenario :
    stairKeyMatch "stair_gf_1" = none ∧ stairKeyMatch "stair_ff_1" = none ∧
    stairKey "stair_gf_1" ≠ stairKey "stair_ff_1" ∧
    stairGroupsOf
        [⟨"stair_gf_1", "G", "stair", 0, 0⟩, ⟨"stair_ff_1", "1", "stair", 3, 4⟩]
      = [("stair_gf_1", ["stair_gf_1"]), ("stair_ff_1", ["stair_ff_1"])] ∧
    verticalStairStep
        [⟨"stair_gf_1", "G", "stair", 0, 0⟩, ⟨"stair_ff_1", "1", "stair", 3, 4⟩]
        [] = [] := by
  exact ⟨rfl, rfl, by decide, rfl, rfl⟩

theorem takeWhile_radius_eq_filter (maxR : ℚ) :
    ∀ l : List (ℚ × String), l.Pairwise (fun a b => a.1 ≤ b.1) →
      l.takeWhile (fun q => !(decide (q.1 > maxR)))
        = l.filter (fun q => decide (q.1 ≤ maxR))
  | [], _ => rfl
  | x :: xs, h => by
    rcases List.pairwise_cons.mp h with ⟨hx, hxs⟩
    by_cases hxr : x.1 > maxR
    · have h1 : (!(decide (x.1 > maxR))) = false := by simp [hxr]
      have h2 : (decide (x.1 ≤ maxR)) = false := by simp [not_le.mpr hxr]
      rw [List.takeWhile_cons, h1, List.filter_cons, h2]
      simp only [Bool.false_eq_true, if_false]
      symm
      rw [List.filter_eq_nil_iff]
      intro q hq
      simp only [decide_eq_true_eq]
      intro hqr
      exact absurd (le_trans (hx q hq) hqr) (not_le.mpr hxr)
    · have h1 : (!(decide (x.1 > maxR))) = true := by simp [hxr]
      have h2 : (decide (x.1 ≤ maxR)) = true := by simp [not_lt.mp hxr]
      rw [List.takeWhile_cons, h1, List.filter_cons, h2]
      simp only [if_true]
      rw [takeWhile_radius_eq_filter maxR xs hxs]

theorem sortBy_dist_sorted (l : List (ℚ × String)) :
    (sortBy (fun p q => decide (p.1 ≤ q.1)) l).Pairwise (fun a b => a.1 ≤ b.1) := by
  have h := sortBy_sorted (fun p q : ℚ × String => decide (p.1 ≤ q.1))
    (fun a b hab => by
      simp only [decide_eq_true_eq]
      simp only [decide_eq_false_iff_not, not_le] at hab
      exact le_of_lt hab)
    (fun a b c hab hbc => by
      simp only [decide_eq_true_eq] at *
      exact le_trans hab hbc) l
  exact h.imp (fun hab => by simpa using hab)

/-- Claim C4: the candidate selector returns (distance, candidate) pairs
sorted ascending by distance, truncated to at most k entries, excluding
every candidate strictly beyond the maximum radius (equivalently: it is the
radius-filtered prefix of the sorted candidate list), each returned pair
being a genuine candidate with its distance to the target; equal-distance
ties keep their stable input order (the sort preserves each distance class
verbatim). -/
theorem nearest_selector_contract (target : String) (candidates : List String)
    (nodes : List Node) (k : ℕ) (maxRadius : ℚ) :
    nearestWithin target candidates nodes k maxRadius
        = ((sortBy (fun p q => decide (p.1 ≤ q.1))
            (candidates.map (fun c => (euclid nodes target c, c)))).filter
              (fun q => decide (q.1 ≤ maxRadius))).take k
      ∧ (nearestWithin target candidates nodes k maxRadius).Pairwise
          (fun a b => a.1 ≤ b.1)
      ∧ (nearestWithin target candidates nodes k maxRadius).length ≤ k
      ∧ (∀ p ∈ nearestWithin target candidates nodes k maxRadius,
          p.1 ≤ maxRadius)
      ∧ (∀ p ∈ nearestWithin target candidates nodes k maxRadius,
          p.2 ∈ candidates ∧ p.1 = euclid nodes target p.2)
      ∧ (∀ c : ℚ,
          (sortBy (fun p q => decide (p.1 ≤ q.1))
              (candidates.map (fun c => (euclid nodes target c, c)))).filter
                (fun q => decide (q.1 = c))
            = (candidates.map (fun c => (euclid nodes target c, c))).filter
                (fun q => decide (q.1 = c))) := by
  have hsorted := sortBy_dist_sorted
    (candidates.map (fun c => (euclid nodes target c, c)))
  have heq : nearestWithin target candidates nodes k maxRadius
      = ((sortBy (fun p q => decide (p.1 ≤ q.1))
          (candidates.map (fun c => (euclid nodes target c, c)))).filter
            (fun q => decide (q.1 ≤ maxRadius))).take k := by
    unfold nearestWithin
    rw [takeWhile_radius_eq_filter _ _ hsorted]
  refine ⟨heq, ?_, ?_, ?_, ?_, ?_⟩
  · rw [heq]
    exact (hsorted.filter _).sublist (List.take_sublist _ _)
  · rw [heq]
    exact List.length_take_le _ _
  · intro p hp
    rw [heq] at hp
    have hp2 := (List.take_sublist _ _).mem hp
    have := (List.mem_filter.mp hp2).2
    simpa using this
  · intro p hp
    rw [heq] at hp
    have hp2 := (List.take_sublist _ _).mem hp
    have hp3 := (List.mem_filter.mp hp2).1
    have hp4 := (mem_sortBy _ _ _).mp hp3
    rcases List.mem_map.mp hp4 with ⟨c, hc, rfl⟩
    exact ⟨hc, rfl⟩
  · intro c
    refine sortBy_filter _ _ ?_ _
    intro a b ha hb
    simp only [decide_eq_true_eq] at *
    rw [ha, hb]

theorem mem_nearest (target : String) (cands : List String) (nodes : List Node)
    (k : ℕ) (p : ℚ × String) (hp : p ∈ nearest target cands nodes k) :
    p.2 ∈ cands ∧ p.1 = euclid nodes target p.2 := by
  unfold nearest at hp
  have hp2 := (List.take_sublist _ _).mem hp
  have hp3 := (mem_sortBy _ _ _).mp hp2
  rcases List.mem_map.mp hp3 with ⟨c, hc, rfl⟩
  exact ⟨hc, rfl⟩

theorem nearest_ne_nil (target : String) (cands : List String)
    (nodes : List Node) (k : ℕ) (hc : cands ≠ []) (hk : 0 < k) :
    nearest target cands nodes k ≠ [] := by
  unfold nearest
  intro h
  have hlen := congrArg List.length h
  rw [List.length_take, sortBy_length, List.length_map, List.length_nil] at hlen
  rcases Nat.min_eq_zero_iff.mp hlen with h0 | h0
  · exact absurd h0 (Nat.pos_iff_ne_zero.mp hk)
  · exact hc (List.length_eq_zero.mp h0)

/-- Claim C9: every edge created by the ordinary leaf-attachment branch of
the main loop connects the leaf to one of its nearest corridors and carries
accessibility true when the leaf's type is room, entrance, lift or other,
and accessibility false when the leaf's type is stair. -/
theorem leafAttach_accessibility (nodes : List Node) (outside : List String)
    (corridors entrances : List String) (nid : String)
    (hcor : corridors ≠ [])
    (hord : ¬ (nid ∈ outside ∧ entrances ≠ [])) :
    (∀ p ∈ leafAttach nodes outside corridors entrances nid,
        p.a = nid ∧ p.b ∈ corridors ∧ p.d = euclid nodes nid p.b) ∧
    ((getNode nodes nid).type = "stair" →
      ∀ p ∈ leafAttach nodes outside corridors entrances nid,
        p.accessible = false) ∧
    ((getNode nodes nid).type ∈ (["room", "entrance", "lift", "other"] : List String) →
      ∀ p ∈ leafAttach nodes outside corridors entrances nid,
        p.accessible = true) := by
  have hshape : leafAttach nodes outside corridors entrances nid
      = (nearest nid corridors nodes NODE_TO_CORRIDOR_NEIGHBORS).map
          (fun p => Proposal.mk nid p.2 p.1
            (decide ((getNode nodes nid).type ≠ "stair"))) := by
    unfold leafAttach
    rw [if_neg hcor, if_neg hord]
  refine ⟨?_, ?_, ?_⟩
  · intro p hp
    rw [hshape] at hp
    rcases List.mem_map.mp hp with ⟨q, hq, rfl⟩
    rcases mem_nearest _ _ _ _ q hq with ⟨h1, h2⟩
    exact ⟨rfl, h1, h2⟩
  · intro htype p hp
    rw [hshape] at hp
    rcases List.mem_map.mp hp with ⟨q, hq, rfl⟩
    simp [htype]
  · intro htype p hp
    rw [hshape] at hp
    rcases List.mem_map.mp hp with ⟨q, hq, rfl⟩
    have hne : (getNode nodes nid).type ≠ "stair" := by
      intro hs
      rw [hs] at htype
      exact absurd htype (by decide)
    simp [hne]

/-- Witness for claim C9: a stair leaf on a floor with one corridor gets a
single attachment edge to that corridor, marked inaccessible. -/
theorem leafAttach_accessibility_witness :
    leafAttach [⟨"s1", "G", "stair", 0, 0⟩, ⟨"c1", "G", "corridor", 1, 0⟩]
        [] ["c1"] [] "s1"
      = [⟨"s1", "c1", 1, false⟩] ∧
    Proposal.accessible ⟨"s1", "c1", 1, false⟩ = false := by
  have hsh : leafAttach [⟨"s1", "G", "stair", 0, 0⟩, ⟨"c1", "G", "corridor", 1, 0⟩]
      [] ["c1"] [] "s1" = [⟨"s1", "c1", 1, false⟩] := by
    with_unfolding_all rfl
  have hmem : (⟨"s1", "c1", 1, false⟩ : Proposal)
      ∈ leafAttach [⟨"s1", "G", "stair", 0, 0⟩, ⟨"c1", "G", "corridor", 1, 0⟩]
        [] ["c1"] [] "s1" := by
    rw [hsh]
    exact List.mem_singleton.mpr rfl
  refine ⟨hsh, ?_⟩
  exact (leafAttach_accessibility
      [⟨"s1", "G", "stair", 0, 0⟩, ⟨"c1", "G", "corridor", 1, 0⟩]
      [] ["c1"] [] "s1" (by decide) (by decide)).2.1 (by rfl)
    ⟨"s1", "c1", 1, false⟩ hmem

/-- Claim C8: an outside node (on a floor with corridors and entrances)
whose nearest entrance is at most as far as its nearest corridor gets
exactly its nearest-entrance edges — every target an entrance and not a
corridor; otherwise it attaches to its nearest corridors exactly as an
ordinary leaf would. -/
theorem leafAttach_outside_redirect (nodes : List Node) (outside : List String)
    (corridors entrances : List String) (nid : String)
    (de dc : ℚ) (eid cid : String)
    (hout : nid ∈ outside) (hcor : corridors ≠ []) (hent : entrances ≠ [])
    (hdisj : ∀ e ∈ entrances, e ∉ corridors)
    (he : (nearest nid entrances nodes NODE_TO_CORRIDOR_NEIGHBORS).head?
      = some (de, eid))
    (hc : (nearest nid corridors nodes NODE_TO_CORRIDOR_NEIGHBORS).head?
      = some (dc, cid)) :
    (de ≤ dc →
      leafAttach nodes outside corridors entrances nid
          = (nearest nid entrances nodes NODE_TO_CORRIDOR_NEIGHBORS).map
              (fun p => Proposal.mk nid p.2 p.1 true) ∧
        ∀ p ∈ leafAttach nodes outside corridors entrances nid,
          p.b ∈ entrances ∧ p.b ∉ corridors) ∧
    (dc < de →
      leafAttach nodes outside corridors entrances nid
          = (nearest nid corridors nodes NODE_TO_CORRIDOR_NEIGHBORS).map
              (fun p => Proposal.mk nid p.2 p.1 true) ∧
        ∀ p ∈ leafAttach nodes outside corridors entrances nid,
          p.b ∈ corridors) := by
  have hshape : leafAttach nodes outside corridors entrances nid
      = if de ≤ dc then
          (nearest nid entrances nodes NODE_TO_CORRIDOR_NEIGHBORS).map
            (fun p => Proposal.mk nid p.2 p.1 true)
        else
          (nearest nid corridors nodes NODE_TO_CORRIDOR_NEIGHBORS).map
            (fun p => Proposal.mk nid p.2 p.1 true) := by
    unfold leafAttach
    rw [if_neg hcor, if_pos ⟨hout, hent⟩, he, hc]
  constructor
  · intro hle
    rw [hshape, if_pos hle]
    refine ⟨rfl, ?_⟩
    intro p hp
    rcases List.mem_map.mp hp with ⟨q, hq, rfl⟩
    rcases mem_nearest _ _ _ _ q hq with ⟨h1, _⟩
    exact ⟨h1, hdisj _ h1⟩
  · intro hlt
    rw [hshape, if_neg (not_le.mpr hlt)]
    refine ⟨rfl, ?_⟩
    intro p hp
    rcases List.mem_map.mp hp with ⟨q, hq, rfl⟩
    exact (mem_nearest _ _ _ _ q hq).1

/-- Witness for claim C8: the outside node `room_gf_10` with an entrance at
distance 1 and a corridor at distance 4 attaches to the entrance, not the
corridor. -/
theorem leafAttach_outside_redirect_witness :
    leafAttach
        [⟨"room_gf_10", "G", "room", 0, 0⟩, ⟨"e1", "G", "entrance", 1, 0⟩,
          ⟨"c1", "G", "corridor", 2, 0⟩]
        OUTSIDE_NODE_IDS ["c1"] ["e1"] "room_gf_10"
      = [⟨"room_gf_10", "e1", 1, true⟩] ∧
    ("e1" ∈ (["e1"] : List String) ∧ "e1" ∉ (["c1"] : List String)) := by
  have h := (leafAttach_outside_redirect
    [⟨"room_gf_10", "G", "room", 0, 0⟩, ⟨"e1", "G", "entrance", 1, 0⟩,
      ⟨"c1", "G", "corridor", 2, 0⟩]
    OUTSIDE_NODE_IDS ["c1"] ["e1"] "room_gf_10" 1 4 "e1" "c1"
    (by decide) (by decide) (by decide) (by decide)
    (by with_unfolding_all rfl) (by with_unfolding_all rfl)).1
    (by norm_num)
  have hall : leafAttach
      [⟨"room_gf_10", "G", "room", 0, 0⟩, ⟨"e1", "G", "entrance", 1, 0⟩,
        ⟨"c1", "G", "corridor", 2, 0⟩]
      OUTSIDE_NODE_IDS ["c1"] ["e1"] "room_gf_10"
      = [⟨"room_gf_10", "e1", 1, true⟩] := h.1.trans (by with_unfolding_all rfl)
  refine ⟨hall, ?_⟩
  have := h.2 ⟨"room_gf_10", "e1", 1, true⟩
    (by rw [hall]; exact List.mem_singleton.mpr rfl)
  exact this

theorem charListLt_irrefl : ∀ l : List Char, charListLt l l = false
  | [] => rfl
  | c :: cs => by
    simp [charListLt, charListLt_irrefl cs]

theorem charEq_of_toNat_eq (c d : Char) (h : c.toNat = d.toNat) : c = d :=
  Char.ext (UInt32.ext h)

theorem charListLt_asymm :
    ∀ l1 l2 : List Char, charListLt l1 l2 = true → charListLt l2 l1 = false
  | [], [] => by simp [charListLt]
  | [], _ :: _ => by simp [charListLt]
  | _ :: _, [] => by simp [charListLt]
  | c :: cs, d :: ds => by
    intro h
    unfold charListLt at *
    by_cases h1 : c.toNat < d.toNat
    · have h2 : ¬ d.toNat < c.toNat := by omega
      simp [h1, h2]
    · by_cases h2 : d.toNat < c.toNat
      · simp [h1, h2] at h
      · simp only [h1, h2, if_false] at *
        exact charListLt_asymm cs ds h

theorem charListLt_trans :
    ∀ l1 l2 l3 : List Char, charListLt l1 l2 = true → charListLt l2 l3 = true →
      charListLt l1 l3 = true
  | [], l2, l3 => by
    cases l3 with
    | nil =>
      intro _ h2
      cases l2 <;> simp [charListLt] at h2
    | cons d ds => intro _ _; simp [charListLt]
  | _ :: _, [], _ => by intro h1; simp [charListLt] at h1
  | c :: cs, d :: ds, l3 => by
    cases l3 with
    | nil => intro _ h2; simp [charListLt] at h2
    | cons e es =>
      intro h1 h2
      unfold charListLt at *
      by_cases hcd : c.toNat < d.toNat
      · by_cases hde : d.toNat < e.toNat
        · have : c.toNat < e.toNat := by omega
          simp [this]
        · by_cases hed : e.toNat < d.toNat
          · simp [hde, hed] at h2
          · have : c.toNat < e.toNat := by omega
            simp [this]
      · by_cases hdc : d.toNat < c.toNat
        · simp [hcd, hdc] at h1
        · simp only [hcd, hdc, if_false] at h1
          by_cases hde : d.toNat < e.toNat
          · have : c.toNat < e.toNat := by omega
            simp [this]
          · by_cases hed : e.toNat < d.toNat
            · simp [hde, hed] at h2
            · simp only [hde, hed, if_false] at h2
              have h3 := charListLt_trans cs ds es h1 h2
              have h4 : ¬ c.toNat < e.toNat := by omega
              have h5 : ¬ e.toNat < c.toNat := by omega
              simp [h4, h5, h3]

theorem charListLt_conn :
    ∀ l1 l2 : List Char, charListLt l1 l2 = false → charListLt l2 l1 = false →
      l1 = l2
  | [], [] => by intro _ _; rfl
  | [], _ :: _ => by intro h _; simp [charListLt] at h
  | _ :: _, [] => by intro _ h; simp [charListLt] at h
  | c :: cs, d :: ds => by
    intro h1 h2
    unfold charListLt at *
    by_cases hcd : c.toNat < d.toNat
    · simp [hcd] at h1
    · by_cases hdc : d.toNat < c.toNat
      · simp [hdc, hcd] at h2
      · have hc : c = d := charEq_of_toNat_eq c d (by omega)
        simp only [hcd, hdc, if_false] at h1 h2
        rw [hc, charListLt_conn cs ds h1 h2]

theorem strEq_of_data_eq (a b : String) (h : a.data = b.data) : a = b := by
  cases a with
  | mk da => cases b with
    | mk db => exact congrArg String.mk h

theorem strLe_of_not_strLe (a b : String) (h : strLe a b = false) :
    strLe b a = true := by
  unfold strLe at *
  simp only [Bool.not_eq_false'] at h
  simp only [Bool.not_eq_true']
  exact charListLt_asymm _ _ h

theorem strLe_antisymm (a b : String) (h1 : strLe a b = true)
    (h2 : strLe b a = true) : a = b := by
  unfold strLe at *
  simp only [Bool.not_eq_true'] at h1 h2
  exact strEq_of_data_eq a b (charListLt_conn a.data b.data h2 h1)

theorem strLe_trans (a b c : String) (h1 : strLe a b = true)
    (h2 : strLe b c = true) : strLe a c = true := by
  unfold strLe at *
  simp only [Bool.not_eq_true'] at *
  cases hc : charListLt c.data a.data
  · rfl
  · exfalso
    cases hd : charListLt a.data b.data
    · have hab := charListLt_conn a.data b.data hd h1
      rw [hab] at hc
      rw [h2] at hc
      cases hc
    · have := charListLt_trans _ _ _ hc hd
      rw [h2] at this
      cases this

theorem strLt_of_strLe_of_ne (a b : String) (h : strLe a b = true)
    (hne : a ≠ b) : strLt a b = true := by
  unfold strLe at h
  unfold strLt
  simp only [Bool.not_eq_true'] at h
  cases hab : charListLt a.data b.data
  · exact absurd (strEq_of_data_eq a b (charListLt_conn a.data b.data hab h)) hne
  · rfl

theorem strLt_ne (a b : String) (h : strLt a b = true) : a ≠ b := by
  intro hab
  rw [hab] at h
  unfold strLt at h
  rw [charListLt_irrefl] at h
  cases h

theorem strLt_asymm (a b : String) (h : strLt a b = true) :
    strLt b a = false := by
  unfold strLt at *
  exact charListLt_asymm _ _ h

theorem canonKey_strict (a b : String) (hne : a ≠ b) :
    strLt (canonKey a b).1 (canonKey a b).2 = true := by
  unfold canonKey
  cases hle : strLe a b
  · rw [if_neg (by simp)]
    exact strLt_of_strLe_of_ne b a (strLe_of_not_strLe a b hle) (Ne.symm hne)
  · rw [if_pos rfl]
    exact strLt_of_strLe_of_ne a b hle hne

theorem rowLe_total (r s : Row) (h : rowLe r s = false) : rowLe s r = true := by
  unfold rowLe at *
  simp only [Bool.or_eq_false_iff, Bool.and_eq_false_iff] at h
  rcases h with ⟨hlt, heq⟩
  by_cases hf : r.fromId = s.fromId
  · rcases heq with he | hle
    · simp [hf] at he
    · have := strLe_of_not_strLe _ _ hle
      simp [hf.symm, this]
  · have : strLt s.fromId r.fromId = true := by
      unfold strLt at *
      cases hc : charListLt s.fromId.data r.fromId.data
      · exact absurd
          (strEq_of_data_eq _ _ (charListLt_conn _ _ hlt hc)) hf
      · rfl
    simp [this]

theorem rowLe_trans (r s t : Row) (h1 : rowLe r s = true)
    (h2 : rowLe s t = true) : rowLe r t = true := by
  unfold rowLe at *
  simp only [Bool.or_eq_true, Bool.and_eq_true, decide_eq_true_eq] at *
  rcases h1 with h1 | ⟨h1e, h1l⟩
  · rcases h2 with h2 | ⟨h2e, h2l⟩
    · exact Or.inl (charListLt_trans _ _ _ h1 h2)
    · rw [← h2e]
      exact Or.inl h1
  · rcases h2 with h2 | ⟨h2e, h2l⟩
    · rw [h1e]
      exact Or.inl h2
    · exact Or.inr ⟨h1e.trans h2e, strLe_trans _ _ _ h1l h2l⟩

theorem length_rowsOf : ∀ es : EdgeList, (rowsOf es).length = 2 * es.length
  | [] => rfl
  | e :: es => by
    simp [rowsOf, length_rowsOf es]
    omega

theorem countP_rowsOf_dir (a b : String) (hab : strLt a b = true) :
    ∀ es : EdgeList, (∀ g ∈ es, strLt g.1.1 g.1.2 = true) →
      ((rowsOf es).countP (fun r => decide (r.fromId = a ∧ r.toId = b))
          = es.countP (fun g => decide (g.1 = (a, b))))
        ∧ ((rowsOf es).countP (fun r => decide (r.fromId = b ∧ r.toId = a))
          = es.countP (fun g => decide (g.1 = (a, b))))
  | [], _ => ⟨rfl, rfl⟩
  | g :: es, hck => by
    have hg := hck g (List.mem_cons_self _ _)
    have ih := countP_rowsOf_dir a b hab es
      (fun e he => hck e (List.mem_cons_of_mem _ he))
    have hrev : ¬ (g.1.2 = a ∧ g.1.1 = b) := by
      rintro ⟨h1, h2⟩
      rw [h1, h2] at hg
      rw [strLt_asymm a b hab] at hg
      cases hg
    have hkey : ∀ x y : String, (x = a ∧ y = b) ↔ ((x, y) = (a, b)) := by
      intro x y
      constructor
      · rintro ⟨rfl, rfl⟩; rfl
      · intro h; exact ⟨congrArg Prod.fst h, congrArg Prod.snd h⟩
    constructor
    · simp only [rowsOf, List.countP_cons, ih.1]
      simp only [decide_eq_true_eq, hrev, hkey g.1.1 g.1.2]
      have : (g.1.1, g.1.2) = g.1 := rfl
      rw [this]
      simp
    · simp only [rowsOf, List.countP_cons, ih.2]
      have hrev2 : ¬ (g.1.1 = b ∧ g.1.2 = a) := fun ⟨h1, h2⟩ => hrev ⟨h2, h1⟩
      simp only [decide_eq_true_eq, hrev2]
      have hkey2 : (g.1.2 = b ∧ g.1.1 = a) ↔ (g.1 = (a, b)) := by
        constructor
        · rintro ⟨h1, h2⟩
          have : (g.1.1, g.1.2) = g.1 := rfl
          rw [← this, h1, h2]
        · intro h
          exact ⟨congrArg Prod.snd h, congrArg Prod.fst h⟩
      simp only [hkey2]
      simp

theorem countP_rowsOf_full (a b : String) (d : ℚ) (acc : Bool)
    (hab : strLt a b = true) :
    ∀ es : EdgeList, (∀ g ∈ es, strLt g.1.1 g.1.2 = true) →
      ((rowsOf es).countP (fun r => decide (r = ⟨a, b, d, acc⟩))
          = es.countP (fun g => decide (g = ((a, b), (d, acc)))))
        ∧ ((rowsOf es).countP (fun r => decide (r = ⟨b, a, d, acc⟩))
          = es.countP (fun g => decide (g = ((a, b), (d, acc)))))
  | [], _ => ⟨rfl, rfl⟩
  | g :: es, hck => by
    have hg := hck g (List.mem_cons_self _ _)
    have ih := countP_rowsOf_full a b d acc hab es
      (fun e he => hck e (List.mem_cons_of_mem _ he))
    have hrev : (Row.mk g.1.2 g.1.1 g.2.1 g.2.2 ≠ Row.mk a b d acc) := by
      intro h
      have h1 := congrArg Row.fromId h
      have h2 := congrArg Row.toId h
      simp only at h1 h2
      rw [h1, h2] at hg
      rw [strLt_asymm a b hab] at hg
      cases hg
    have hrev2 : (Row.mk g.1.1 g.1.2 g.2.1 g.2.2 ≠ Row.mk b a d acc) := by
      intro h
      have h1 := congrArg Row.fromId h
      have h2 := congrArg Row.toId h
      simp only at h1 h2
      rw [h1, h2] at hg
      rw [strLt_asymm a b hab] at hg
      cases hg
    have hfwd : (Row.mk g.1.1 g.1.2 g.2.1 g.2.2 = Row.mk a b d acc)
        ↔ (g = ((a, b), (d, acc))) := by
      constructor
      · intro h
        have h1 := congrArg Row.fromId h
        have h2 := congrArg Row.toId h
        have h3 := congrArg Row.distance h
        have h4 := congrArg Row.accessible h
        simp only at h1 h2 h3 h4
        have : g = ((g.1.1, g.1.2), (g.2.1, g.2.2)) := rfl
        rw [this, h1, h2, h3, h4]
      · intro h
        rw [h]
    have hbwd : (Row.mk g.1.2 g.1.1 g.2.1 g.2.2 = Row.mk b a d acc)
        ↔ (g = ((a, b), (d, acc))) := by
      constructor
      · intro h
        have h1 := congrArg Row.fromId h
        have h2 := congrArg Row.toId h
        have h3 := congrArg Row.distance h
        have h4 := congrArg Row.accessible h
        simp only at h1 h2 h3 h4
        have : g = ((g.1.1, g.1.2), (g.2.1, g.2.2)) := rfl
        rw [this, h1, h2, h3, h4]
      · intro h
        rw [h]
    constructor
    · simp only [rowsOf, List.countP_cons, ih.1, decide_eq_true_eq, hrev, hfwd]
      simp
    · simp only [rowsOf, List.countP_cons, ih.2, decide_eq_true_eq, hrev2, hbwd]
      simp

theorem countP_key_of_nodup (e : (String × String) × ℚ × Bool) :
    ∀ es : EdgeList, e ∈ es → (keysOf es).Nodup →
      es.countP (fun g => decide (g.1 = e.1)) = 1
  | [], he, _ => absurd he (List.not_mem_nil _)
  | f :: es, he, hnd => by
    rcases List.pairwise_cons.mp hnd with ⟨hf, hnd2⟩
    rcases List.mem_cons.mp he with rfl | he2
    · simp only [List.countP_cons, decide_eq_true_eq]
      have : es.countP (fun g => decide (g.1 = e.1)) = 0 := by
        rw [List.countP_eq_zero]
        intro g hg
        simp only [decide_eq_true_eq]
        intro hgk
        exact hf g.1 (List.mem_map.mpr ⟨g, hg, rfl⟩) hgk.symm
      simp [this]
    · have hfk : f.1 ≠ e.1 := fun h =>
        hf e.1 (List.mem_map.mpr ⟨e, he2, rfl⟩) h
      simp only [List.countP_cons, decide_eq_true_eq, hfk]
      rw [countP_key_of_nodup e es he2 hnd2]
      simp [hfk]

theorem countP_entry_of_nodup (e : (String × String) × ℚ × Bool) :
    ∀ es : EdgeList, e ∈ es → (keysOf es).Nodup →
      es.countP (fun g => decide (g = e)) = 1
  | [], he, _ => absurd he (List.not_mem_nil _)
  | f :: es, he, hnd => by
    rcases List.pairwise_cons.mp hnd with ⟨hf, hnd2⟩
    rcases List.mem_cons.mp he with rfl | he2
    · simp only [List.countP_cons, decide_eq_true_eq]
      have : es.countP (fun g => decide (g = e)) = 0 := by
        rw [List.countP_eq_zero]
        intro g hg
        simp only [decide_eq_true_eq]
        intro hge
        subst hge
        exact hf g.1 (List.mem_map.mpr ⟨g, hg, rfl⟩) rfl
      simp [this]
    · have hfk : f ≠ e := fun h =>
        hf e.1 (List.mem_map.mpr ⟨e, he2, rfl⟩) (congrArg Prod.fst h)
      simp only [List.countP_cons, decide_eq_true_eq, hfk]
      rw [countP_entry_of_nodup e es he2 hnd2]
      simp [hfk]

/-- Claim C5: in the persisted output of an edge dictionary with canonical
distinct keys, every canonical undirected edge appears as exactly one
directed row per direction, both rows carrying exactly the stored distance
and accessibility, the whole list is sorted by the (from, to) key, and its
length is exactly two rows per edge. -/
theorem rows_two_directed_sorted (edges : EdgeList)
    (hck : ∀ e ∈ edges, strLt e.1.1 e.1.2 = true)
    (hnd : (keysOf edges).Nodup) :
    (∀ e ∈ edges,
      (sortedRows edges).countP
          (fun r => decide (r.fromId = e.1.1 ∧ r.toId = e.1.2)) = 1 ∧
      (sortedRows edges).countP
          (fun r => decide (r.fromId = e.1.2 ∧ r.toId = e.1.1)) = 1 ∧
      (sortedRows edges).countP
          (fun r => decide (r = ⟨e.1.1, e.1.2, e.2.1, e.2.2⟩)) = 1 ∧
      (sortedRows edges).countP
          (fun r => decide (r = ⟨e.1.2, e.1.1, e.2.1, e.2.2⟩)) = 1) ∧
    (sortedRows edges).Pairwise (fun r s => rowLe r s = true) ∧
    (sortedRows edges).length = 2 * edges.length := by
  have hperm := sortBy_perm rowLe (rowsOf edges)
  refine ⟨?_, ?_, ?_⟩
  · intro e he
    have hab := hck e he
    have hdir := countP_rowsOf_dir e.1.1 e.1.2 hab edges hck
    have hfull := countP_rowsOf_full e.1.1 e.1.2 e.2.1 e.2.2 hab edges hck
    have hkey := countP_key_of_nodup e edges he hnd
    have hent := countP_entry_of_nodup e edges he hnd
    have hkeyeta : (fun g : (String × String) × ℚ × Bool =>
        decide (g.1 = (e.1.1, e.1.2))) = (fun g => decide (g.1 = e.1)) := by
      funext g
      congr 1
    have henteta : (fun g : (String × String) × ℚ × Bool =>
        decide (g = ((e.1.1, e.1.2), (e.2.1, e.2.2)))) = (fun g => decide (g = e)) := by
      funext g
      congr 1
    unfold sortedRows
    rw [hperm.countP_eq, hperm.countP_eq, hperm.countP_eq, hperm.countP_eq]
    rw [hdir.1, hdir.2, hfull.1, hfull.2, hkeyeta, henteta, hkey, hent]
    exact ⟨rfl, rfl, rfl, rfl⟩
  · exact sortBy_sorted rowLe rowLe_total rowLe_trans (rowsOf edges)
  · unfold sortedRows
    rw [hperm.length_eq, length_rowsOf]

/-- Witness for claim C5: a one-edge dictionary produces exactly the rows
a to b and b to a with the stored weight and accessibility, sorted. -/
theorem rows_two_directed_sorted_witness :
    (sortedRows [(("a", "b"), (1, true))]).countP
        (fun r => decide (r.fromId = "a" ∧ r.toId = "b")) = 1 ∧
    sortedRows [(("a", "b"), (1, true))]
      = [⟨"a", "b", 1, true⟩, ⟨"b", "a", 1, true⟩] := by
  constructor
  · exact ((rows_two_directed_sorted [(("a", "b"), (1, true))]
      (by
        intro e he
        rcases List.mem_singleton.mp he with rfl
        decide)
      (by decide)).1 (("a", "b"), (1, true)) (List.mem_singleton.mpr rfl)).1
  · rfl

theorem mem_setEdge (k : String × String) (v : ℚ × Bool) :
    ∀ es : EdgeList, ∀ e ∈ setEdge es k v, e ∈ es ∨ e = (k, v)
  | [], e, he => absurd he (List.not_mem_nil _)
  | f :: es, e, he => by
    by_cases hf : f.1 = k
    · rw [setEdge, if_pos hf] at he
      rcases List.mem_cons.mp he with rfl | he2
      · exact Or.inr rfl
      · exact (mem_setEdge k v es e he2).imp (List.mem_cons_of_mem f) id
    · rw [setEdge, if_neg hf] at he
      rcases List.mem_cons.mp he with rfl | he2
      · exact Or.inl (List.mem_cons_self _ _)
      · exact (mem_setEdge k v es e he2).imp (List.mem_cons_of_mem f) id

theorem mem_add_edge (es : EdgeList) (a b : String) (d : ℚ) (acc : Bool) :
    ∀ e ∈ add_edge es a b d acc, e ∈ es ∨ e.2 = (d, acc) := by
  intro e he
  unfold add_edge at he
  cases hl : lookupEdge es (canonKey a b) with
  | none =>
    rw [hl] at he
    dsimp only at he
    rcases List.mem_append.mp he with he2 | he2
    · exact Or.inl he2
    · rcases List.mem_singleton.mp he2 with rfl
      exact Or.inr rfl
  | some w =>
    rw [hl] at he
    dsimp only at he
    by_cases hd : d < w.1
    · rw [if_pos hd] at he
      rcases mem_setEdge _ _ es e he with he2 | rfl
      · exact Or.inl he2
      · exact Or.inr rfl
    · rw [if_neg hd] at he
      exact Or.inl he

/-- Claim C10: every entry the connectivity-repair pass adds to or rewrites
in the edge dictionary carries accessibility true (the stitch calls
`add_edge` with `accessible=True` unconditionally); and, concretely, on a
floor holding only a stair and a room (no corridor, so the fall-back picks
arbitrary component nodes) the repair attaches the stair with an accessible
intra-floor edge. -/
theorem connect_components_new_edges_accessible
    (floor_nodes : List String) (edges : EdgeList) (nodes : List Node) :
    (∀ e ∈ connect_components floor_nodes edges nodes,
        e ∈ edges ∨ e.2.2 = true) ∧
    connect_components ["stair_x", "room_y"] []
        [⟨"stair_x", "G", "stair", 0, 0⟩, ⟨"room_y", "G", "room", 3, 0⟩]
      = [(("room_y", "stair_x"), (9, true))] ∧
    (getNode [⟨"stair_x", "G", "stair", 0, 0⟩, ⟨"room_y", "G", "room", 3, 0⟩]
      "stair_x").type = "stair" := by
  refine ⟨?_, by with_unfolding_all rfl, rfl⟩
  intro e he
  unfold connect_components at he
  by_cases hlen : (computeComponents (buildAdj edges nodes) floor_nodes).length ≤ 1
  · rw [if_pos hlen] at he
    exact Or.inl he
  · rw [if_neg hlen] at he
    suffices h : ∀ (subsets : List (List String)) (st : List String × EdgeList),
        (∀ e ∈ st.2, e ∈ edges ∨ e.2.2 = true) →
        ∀ e ∈ (stitchFold nodes subsets st).2, e ∈ edges ∨ e.2.2 = true by
      exact h _ _ (fun e he2 => Or.inl he2) e he
    intro subsets
    induction subsets with
    | nil => intro st hst e he; exact hst e he
    | cons subset rest ih =>
      intro st hst e he
      rw [stitchFold, List.foldl_cons] at he
      cases hbp : bestPair nodes st.1 subset with
      | none =>
        rw [hbp] at he
        exact ih st hst e he
      | some t =>
        rw [hbp] at he
        refine ih _ ?_ e he
        intro f hf
        rcases mem_add_edge _ _ _ _ _ f hf with hf2 | hf2
        · exact hst f hf2
        · right
          rw [hf2]

/-- Witness for claim C10: the stitch edge of the stair-and-room floor is
not a pre-existing edge, so the theorem forces its accessibility true. -/
theorem connect_components_new_edges_accessible_witness :
    connect_components ["stair_x", "room_y"] []
        [⟨"stair_x", "G", "stair", 0, 0⟩, ⟨"room_y", "G", "room", 3, 0⟩]
      = [(("room_y", "stair_x"), (9, true))] ∧
    ((("room_y", "stair_x"), ((9 : ℚ), true)) ∈ ([] : EdgeList) ∨
      (((("room_y", "stair_x"), ((9 : ℚ), true)) : ((String × String) × ℚ × Bool)).2.2
        = true)) := by
  have hall : connect_components ["stair_x", "room_y"] []
      [⟨"stair_x", "G", "stair", 0, 0⟩, ⟨"room_y", "G", "room", 3, 0⟩]
      = [(("room_y", "stair_x"), (9, true))] := by
    with_unfolding_all rfl
  refine ⟨hall, ?_⟩
  exact (connect_components_new_edges_accessible ["stair_x", "room_y"] []
    [⟨"stair_x", "G", "stair", 0, 0⟩, ⟨"room_y", "G", "room", 3, 0⟩]).1
    (("room_y", "stair_x"), (9, true))
    (by rw [hall]; exact List.mem_singleton.mpr rfl)

theorem bresLoop_length (dx dy ystep : ℤ) (steep : Bool) :
    ∀ (n : ℕ) (x y e : ℤ), (bresLoop dx dy ystep steep n x y e).length = n
  | 0, _, _, _ => rfl
  | n + 1, x, y, e => by
    unfold bresLoop
    by_cases hb : e - 2 * dy < 0
    · rw [if_pos hb]
      simp [bresLoop_length dx dy ystep steep n]
    · rw [if_neg hb]
      simp [bresLoop_length dx dy ystep steep n]

theorem bresLoop_map_dom (dx dy ystep : ℤ) (steep : Bool) :
    ∀ (n : ℕ) (x y e : ℤ),
      (bresLoop dx dy ystep steep n x y e).map
        (fun p => if steep then p.2 else p.1) = rangeFrom x n
  | 0, _, _, _ => rfl
  | n + 1, x, y, e => by
    have ih1 := bresLoop_map_dom dx dy ystep steep n (x + 1) (y + ystep)
      (e - 2 * dy + 2 * dx)
    have ih2 := bresLoop_map_dom dx dy ystep steep n (x + 1) y (e - 2 * dy)
    unfold bresLoop
    by_cases hb : e - 2 * dy < 0
    · rw [if_pos hb]
      cases steep <;> simp_all [rangeFrom]
    · rw [if_neg hb]
      cases steep <;> simp_all [rangeFrom]

theorem bresLoop_start_mem (dx dy ystep : ℤ) (steep : Bool) (n : ℕ) (x y e : ℤ) :
    (if steep then ((y, x) : ℤ × ℤ) else (x, y))
      ∈ bresLoop dx dy ystep steep (n + 1) x y e := by
  unfold bresLoop
  by_cases hb : e - 2 * dy < 0
  · rw [if_pos hb]
    exact List.mem_cons_self _ _
  · rw [if_neg hb]
    exact List.mem_cons_self _ _

theorem bresLoop_final_mem (dx dy ystep : ℤ) (steep : Bool) :
    ∀ (n : ℕ) (x y e : ℤ),
      (if steep then
          ((y + ystep * (advCount dx dy n e : ℤ), x + (n : ℤ)) : ℤ × ℤ)
        else (x + (n : ℤ), y + ystep * (advCount dx dy n e : ℤ)))
        ∈ bresLoop dx dy ystep steep (n + 1) x y e
  | 0, x, y, e => by
    unfold bresLoop advCount
    by_cases hb : e - 2 * dy < 0
    · rw [if_pos hb]
      cases steep <;> simp
    · rw [if_neg hb]
      cases steep <;> simp
  | n + 1, x, y, e => by
    have ih1 := bresLoop_final_mem dx dy ystep steep n (x + 1) (y + ystep)
      (e - 2 * dy + 2 * dx)
    have ih2 := bresLoop_final_mem dx dy ystep steep n (x + 1) y (e - 2 * dy)
    unfold bresLoop advCount
    by_cases hb : e - 2 * dy < 0
    · simp only [if_pos hb]
      refine List.mem_cons_of_mem _ ?_
      have hpt : (if steep then
            ((y + ystep * ((advCount dx dy n (e - 2 * dy + 2 * dx) + 1 : ℕ) : ℤ),
              x + (((n : ℕ) + 1 : ℕ) : ℤ)) : ℤ × ℤ)
          else (x + (((n : ℕ) + 1 : ℕ) : ℤ),
            y + ystep * ((advCount dx dy n (e - 2 * dy + 2 * dx) + 1 : ℕ) : ℤ)))
          = (if steep then
            ((y + ystep + ystep * (advCount dx dy n (e - 2 * dy + 2 * dx) : ℤ),
              x + 1 + (n : ℤ)) : ℤ × ℤ)
          else (x + 1 + (n : ℤ),
            y + ystep + ystep * (advCount dx dy n (e - 2 * dy + 2 * dx) : ℤ))) := by
        cases steep <;>
          simp only [if_true, if_false, Bool.false_eq_true, Prod.mk.injEq] <;>
          constructor <;> push_cast <;> ring
      rw [hpt]
      exact ih1
    · simp only [if_neg hb]
      refine List.mem_cons_of_mem _ ?_
      have hpt : (if steep then
            ((y + ystep * ((advCount dx dy n (e - 2 * dy) : ℕ) : ℤ),
              x + (((n : ℕ) + 1 : ℕ) : ℤ)) : ℤ × ℤ)
          else (x + (((n : ℕ) + 1 : ℕ) : ℤ),
            y + ystep * ((advCount dx dy n (e - 2 * dy) : ℕ) : ℤ)))
          = (if steep then
            ((y + ystep * (advCount dx dy n (e - 2 * dy) : ℤ),
              x + 1 + (n : ℤ)) : ℤ × ℤ)
          else (x + 1 + (n : ℤ),
            y + ystep * (advCount dx dy n (e - 2 * dy) : ℤ))) := by
        cases steep <;>
          simp only [if_true, if_false, Bool.false_eq_true, Prod.mk.injEq] <;>
          constructor <;> push_cast <;> ring
      rw [hpt]
      exact ih2

theorem advCount_formula (dx dy : ℤ) (hdx : 0 < dx) (hdy : 0 ≤ dy)
    (hdydx : dy ≤ dx) :
    ∀ (n : ℕ) (e : ℤ), 0 ≤ e → e < 2 * dx →
      (advCount dx dy n e : ℤ) = (2 * (n : ℤ) * dy + 2 * dx - 1 - e) / (2 * dx)
  | 0, e, he0, he2 => by
    unfold advCount
    have hnum : 2 * ((0 : ℕ) : ℤ) * dy + 2 * dx - 1 - e = 2 * dx - 1 - e := by
      push_cast; ring
    rw [hnum]
    symm
    rw [Int.ediv_eq_zero_of_lt (by omega) (by omega)]
    simp
  | n + 1, e, he0, he2 => by
    unfold advCount
    by_cases hb : e - 2 * dy < 0
    · rw [if_pos hb]
      have ih := advCount_formula dx dy hdx hdy hdydx n (e - 2 * dy + 2 * dx)
        (by omega) (by omega)
      push_cast
      rw [ih]
      have harith : 2 * ((n : ℤ) + 1) * dy + 2 * dx - 1 - e
          = (2 * (n : ℤ) * dy + 2 * dx - 1 - (e - 2 * dy + 2 * dx)) + 1 * (2 * dx) := by
        ring
      rw [harith, Int.add_mul_ediv_right _ _ (by omega : (2 : ℤ) * dx ≠ 0)]
    · rw [if_neg hb]
      have ih := advCount_formula dx dy hdx hdy hdydx n (e - 2 * dy) (by omega)
        (by omega)
      rw [ih]
      push_cast
      congr 1
      ring

theorem advCount_full (dx dy : ℤ) (hdx : 0 < dx) (hdy : 0 ≤ dy)
    (hdydx : dy ≤ dx) : (advCount dx dy dx.toNat dx : ℤ) = dy := by
  rw [advCount_formula dx dy hdx hdy hdydx dx.toNat dx (by omega) (by omega)]
  have hc : (dx.toNat : ℤ) = dx := Int.toNat_of_nonneg (by omega)
  rw [hc]
  have hnum : 2 * dx * dy + 2 * dx - 1 - dx = (dx - 1) + dy * (2 * dx) := by ring
  rw [hnum, Int.add_mul_ediv_right _ _ (by omega : (2 : ℤ) * dx ≠ 0),
    Int.ediv_eq_zero_of_lt (by omega) (by omega)]
  simp

/-- Un-swap of the steep coordinate exchange: maps a loop-space point back to
image space. -/
theorem bresRun_endpoint_mem (q1 q2 : ℤ × ℤ) (steep : Bool)
    (hord : q1.1 ≤ q2.1)
    (hdom : (q2.2 - q1.2).natAbs ≤ (q2.1 - q1.1).natAbs) :
    (if steep then ((q1.2, q1.1) : ℤ × ℤ) else (q1.1, q1.2))
        ∈ bresRun q1 q2 steep ∧
      (if steep then ((q2.2, q2.1) : ℤ × ℤ) else (q2.1, q2.2))
        ∈ bresRun q1 q2 steep := by
  have hstart := bresLoop_start_mem (q2.1 - q1.1) ((q2.2 - q1.2).natAbs)
    (if q1.2 < q2.2 then 1 else -1) steep ((q2.1 - q1.1).toNat) q1.1 q1.2
    (q2.1 - q1.1)
  refine ⟨hstart, ?_⟩
  by_cases hdx : q2.1 - q1.1 = 0
  · have hq1 : q2.1 = q1.1 := by omega
    have hq2 : q2.2 = q1.2 := by
      have := hdom
      rw [hdx] at this
      simp at this
      omega
    rw [hq1, hq2]
    exact hstart
  · have hdxpos : 0 < q2.1 - q1.1 := by omega
    have hfin := bresLoop_final_mem (q2.1 - q1.1) ((q2.2 - q1.2).natAbs)
      (if q1.2 < q2.2 then 1 else -1) steep ((q2.1 - q1.1).toNat) q1.1 q1.2
      (q2.1 - q1.1)
    have hadv : ((advCount (q2.1 - q1.1) ((q2.2 - q1.2).natAbs)
        ((q2.1 - q1.1).toNat) (q2.1 - q1.1)) : ℤ) = ((q2.2 - q1.2).natAbs : ℤ) :=
      advCount_full _ _ hdxpos (by positivity) (by omega)
    have hx : q1.1 + (((q2.1 - q1.1).toNat : ℕ) : ℤ) = q2.1 := by omega
    have hy : q1.2 + (if q1.2 < q2.2 then (1 : ℤ) else -1)
        * ((advCount (q2.1 - q1.1) ((q2.2 - q1.2).natAbs)
          ((q2.1 - q1.1).toNat) (q2.1 - q1.1)) : ℤ) = q2.2 := by
      rw [hadv]
      by_cases hlt : q1.2 < q2.2
      · rw [if_pos hlt]
        omega
      · rw [if_neg hlt]
        omega
    rw [hx, hy] at hfin
    exact hfin

theorem orderPts_fst_le (p1 p2 : ℤ × ℤ) :
    (orderPts p1 p2).1.1 ≤ (orderPts p1 p2).2.1 := by
  unfold orderPts
  by_cases h : p1.1 > p2.1
  · rw [if_pos h]
    dsimp only
    omega
  · rw [if_neg h]
    dsimp only
    omega

theorem orderPts_abs (p1 p2 : ℤ × ℤ) :
    ((orderPts p1 p2).2.1 - (orderPts p1 p2).1.1).natAbs = (p2.1 - p1.1).natAbs
      ∧ ((orderPts p1 p2).2.2 - (orderPts p1 p2).1.2).natAbs
        = (p2.2 - p1.2).natAbs := by
  unfold orderPts
  by_cases h : p1.1 > p2.1
  · rw [if_pos h]
    dsimp only
    constructor <;> omega
  · rw [if_neg h]
    exact ⟨rfl, rfl⟩

theorem orderPts_comm (p1 p2 : ℤ × ℤ) (hne : p1.1 ≠ p2.1) :
    orderPts p2 p1 = orderPts p1 p2 := by
  unfold orderPts
  by_cases h : p1.1 > p2.1
  · rw [if_pos h, if_neg (by omega)]
  · rw [if_neg h, if_pos (by omega)]

theorem orderPts_cases (p1 p2 : ℤ × ℤ) :
    (orderPts p1 p2 = (p1, p2) ∧ ¬ p1.1 > p2.1) ∨
      (orderPts p1 p2 = (p2, p1) ∧ p1.1 > p2.1) := by
  unfold orderPts
  by_cases h : p1.1 > p2.1
  · exact Or.inr ⟨if_pos h, h⟩
  · exact Or.inl ⟨if_neg h, h⟩

theorem bresRun_both_endpoints (p1 p2 : ℤ × ℤ) (steep : Bool)
    (hdom : (p2.2 - p1.2).natAbs ≤ (p2.1 - p1.1).natAbs) :
    (if steep then ((p1.2, p1.1) : ℤ × ℤ) else (p1.1, p1.2))
        ∈ bresRun (orderPts p1 p2).1 (orderPts p1 p2).2 steep ∧
      (if steep then ((p2.2, p2.1) : ℤ × ℤ) else (p2.1, p2.2))
        ∈ bresRun (orderPts p1 p2).1 (orderPts p1 p2).2 steep := by
  have hord := orderPts_fst_le p1 p2
  have habs := orderPts_abs p1 p2
  have hmem := bresRun_endpoint_mem (orderPts p1 p2).1 (orderPts p1 p2).2 steep
    hord (by rw [habs.1, habs.2]; exact hdom)
  rcases orderPts_cases p1 p2 with ⟨heq, _⟩ | ⟨heq, _⟩
  · rw [heq] at hmem ⊢
    dsimp only at hmem ⊢
    exact hmem
  · rw [heq] at hmem ⊢
    dsimp only at hmem ⊢
    exact ⟨hmem.2, hmem.1⟩

/-- Claim C7: the integer line rasterisation includes both endpoints, is
symmetric under endpoint exchange (the two directions produce the very same
pixel list, hence the same pixel set, and the routine is a pure function,
hence deterministic), and emits exactly one pixel per dominant-axis step:
the dominant coordinates of its output enumerate the integer interval
between the endpoints' dominant coordinates in ascending order. -/
theorem rasterize_contract (x1 y1 x2 y2 : ℤ) :
    ((x1, y1) ∈ rasterize x1 y1 x2 y2 ∧ (x2, y2) ∈ rasterize x1 y1 x2 y2) ∧
    rasterize x1 y1 x2 y2 = rasterize x2 y2 x1 y1 ∧
    (rasterize x1 y1 x2 y2).map
        (fun p => if (y2 - y1).natAbs > (x2 - x1).natAbs then p.2 else p.1)
      = rangeFrom
          (min (if (y2 - y1).natAbs > (x2 - x1).natAbs then y1 else x1)
            (if (y2 - y1).natAbs > (x2 - x1).natAbs then y2 else x2))
          ((if (y2 - y1).natAbs > (x2 - x1).natAbs then y2 - y1
            else x2 - x1).natAbs + 1) := by
  by_cases hst : (y2 - y1).natAbs > (x2 - x1).natAbs
  · have hrw : rasterize x1 y1 x2 y2
        = bresRun (orderPts (y1, x1) (y2, x2)).1 (orderPts (y1, x1) (y2, x2)).2
            true := by
      unfold rasterize
      rw [if_pos hst]
    refine ⟨?_, ?_, ?_⟩
    · have hmem := bresRun_both_endpoints (y1, x1) (y2, x2) true
        (by dsimp only; omega)
      rw [hrw]
      simpa using hmem
    · have hst2 : (y1 - y2).natAbs > (x1 - x2).natAbs := by omega
      have hrw2 : rasterize x2 y2 x1 y1
          = bresRun (orderPts (y2, x2) (y1, x1)).1 (orderPts (y2, x2) (y1, x1)).2
              true := by
        unfold rasterize
        rw [if_pos hst2]
      rw [hrw, hrw2]
      have hne : ((y1 : ℤ), x1).1 ≠ ((y2 : ℤ), x2).1 := by
        dsimp only
        omega
      rw [orderPts_comm (y1, x1) (y2, x2) hne]
    · rw [hrw]
      have hmap := bresLoop_map_dom
        ((orderPts (y1, x1) (y2, x2)).2.1 - (orderPts (y1, x1) (y2, x2)).1.1)
        (((orderPts (y1, x1) (y2, x2)).2.2 - (orderPts (y1, x1) (y2, x2)).1.2).natAbs)
        (if (orderPts (y1, x1) (y2, x2)).1.2 < (orderPts (y1, x1) (y2, x2)).2.2
          then 1 else -1)
        true
        (((orderPts (y1, x1) (y2, x2)).2.1 - (orderPts (y1, x1) (y2, x2)).1.1).toNat + 1)
        (orderPts (y1, x1) (y2, x2)).1.1 (orderPts (y1, x1) (y2, x2)).1.2
        ((orderPts (y1, x1) (y2, x2)).2.1 - (orderPts (y1, x1) (y2, x2)).1.1)
      unfold bresRun
      have hfun : (fun p : ℤ × ℤ =>
          if (y2 - y1).natAbs > (x2 - x1).natAbs then p.2 else p.1)
          = (fun p : ℤ × ℤ => if true = true then p.2 else p.1) := by
        funext p
        rw [if_pos hst, if_pos rfl]
      rw [hfun, hmap, if_pos hst, if_pos hst, if_pos hst]
      rcases orderPts_cases ((y1 : ℤ), x1) ((y2 : ℤ), x2) with ⟨heq, hgt⟩ | ⟨heq, hgt⟩ <;>
        rw [heq] <;> dsimp only at hgt ⊢ <;> congr 1 <;> omega
  · have hrw : rasterize x1 y1 x2 y2
        = bresRun (orderPts (x1, y1) (x2, y2)).1 (orderPts (x1, y1) (x2, y2)).2
            false := by
      unfold rasterize
      rw [if_neg hst]
    refine ⟨?_, ?_, ?_⟩
    · have hmem := bresRun_both_endpoints (x1, y1) (x2, y2) false
        (by dsimp only; omega)
      rw [hrw]
      simpa using hmem
    · have hst2 : ¬ (y1 - y2).natAbs > (x1 - x2).natAbs := by omega
      have hrw2 : rasterize x2 y2 x1 y1
          = bresRun (orderPts (x2, y2) (x1, y1)).1 (orderPts (x2, y2) (x1, y1)).2
              false := by
        unfold rasterize
        rw [if_neg hst2]
      rw [hrw, hrw2]
      by_cases hne : ((x1 : ℤ), y1).1 = ((x2 : ℤ), y2).1
      · dsimp only at hne
        have hy : y1 = y2 := by omega
        rw [hne, hy]
      · rw [orderPts_comm (x1, y1) (x2, y2) hne]
    · rw [hrw]
      have hmap := bresLoop_map_dom
        ((orderPts (x1, y1) (x2, y2)).2.1 - (orderPts (x1, y1) (x2, y2)).1.1)
        (((orderPts (x1, y1) (x2, y2)).2.2 - (orderPts (x1, y1) (x2, y2)).1.2).natAbs)
        (if (orderPts (x1, y1) (x2, y2)).1.2 < (orderPts (x1, y1) (x2, y2)).2.2
          then 1 else -1)
        false
        (((orderPts (x1, y1) (x2, y2)).2.1 - (orderPts (x1, y1) (x2, y2)).1.1).toNat + 1)
        (orderPts (x1, y1) (x2, y2)).1.1 (orderPts (x1, y1) (x2, y2)).1.2
        ((orderPts (x1, y1) (x2, y2)).2.1 - (orderPts (x1, y1) (x2, y2)).1.1)
      unfold bresRun
      have hfun : (fun p : ℤ × ℤ =>
          if (y2 - y1).natAbs > (x2 - x1).natAbs then p.2 else p.1)
          = (fun p : ℤ × ℤ => if false = true then p.2 else p.1) := by
        funext p
        rw [if_neg hst, if_neg (by simp)]
      rw [hfun, hmap, if_neg hst, if_neg hst, if_neg hst]
      rcases orderPts_cases ((x1 : ℤ), y1) ((x2 : ℤ), y2) with ⟨heq, hgt⟩ | ⟨heq, hgt⟩ <;>
        rw [heq] <;> dsimp only at hgt ⊢ <;> congr 1 <;> omega

theorem bresLoop_lb (dx dy ystep : ℤ) (steep : Bool) :
    ∀ (n : ℕ) (x y e : ℤ), ∀ q ∈ bresLoop dx dy ystep steep n x y e,
      (x ≤ (if steep then q.2 else q.1)) ∧
      (0 ≤ ystep → y ≤ (if steep then q.1 else q.2)) ∧
      (ystep ≤ 0 → (if steep then q.1 else q.2) ≤ y)
  | 0, _, _, _, q, hq => absurd hq (List.not_mem_nil _)
  | n + 1, x, y, e, q, hq => by
    unfold bresLoop at hq
    by_cases hb : e - 2 * dy < 0
    · rw [if_pos hb] at hq
      rcases List.mem_cons.mp hq with rfl | hq2
      · cases steep <;> simp
      · have ih := bresLoop_lb dx dy ystep steep n (x + 1) (y + ystep)
          (e - 2 * dy + 2 * dx) q hq2
        refine ⟨by omega, fun hy => ?_, fun hy => ?_⟩
        · have := ih.2.1 hy
          omega
        · have := ih.2.2 hy
          omega
    · rw [if_neg hb] at hq
      rcases List.mem_cons.mp hq with rfl | hq2
      · cases steep <;> simp
      · have ih := bresLoop_lb dx dy ystep steep n (x + 1) y (e - 2 * dy) q hq2
        exact ⟨by omega, ih.2.1, ih.2.2⟩

theorem bresLoop_pairwise (dx dy ystep : ℤ) (steep : Bool) :
    ∀ (n : ℕ) (x y e : ℤ),
      (bresLoop dx dy ystep steep n x y e).Pairwise (fun p q =>
        ((if steep then p.2 else p.1) ≤ (if steep then q.2 else q.1)) ∧
        (0 ≤ ystep → (if steep then p.1 else p.2) ≤ (if steep then q.1 else q.2)) ∧
        (ystep ≤ 0 → (if steep then q.1 else q.2) ≤ (if steep then p.1 else p.2)))
  | 0, _, _, _ => List.Pairwise.nil
  | n + 1, x, y, e => by
    unfold bresLoop
    by_cases hb : e - 2 * dy < 0
    · rw [if_pos hb]
      refine List.pairwise_cons.mpr ⟨?_, bresLoop_pairwise dx dy ystep steep n _ _ _⟩
      intro q hq
      have hlb := bresLoop_lb dx dy ystep steep n (x + 1) (y + ystep)
        (e - 2 * dy + 2 * dx) q hq
      refine ⟨?_, fun hy => ?_, fun hy => ?_⟩
      · have h1 := hlb.1
        cases steep <;> simp at h1 ⊢ <;> omega
      · have h2 := hlb.2.1 hy
        cases steep <;> simp at h2 ⊢ <;> omega
      · have h3 := hlb.2.2 hy
        cases steep <;> simp at h3 ⊢ <;> omega
    · rw [if_neg hb]
      refine List.pairwise_cons.mpr ⟨?_, bresLoop_pairwise dx dy ystep steep n _ _ _⟩
      intro q hq
      have hlb := bresLoop_lb dx dy ystep steep n (x + 1) y (e - 2 * dy) q hq
      refine ⟨?_, fun hy => ?_, fun hy => ?_⟩
      · have h1 := hlb.1
        cases steep <;> simp at h1 ⊢ <;> omega
      · have h2 := hlb.2.1 hy
        cases steep <;> simp at h2 ⊢ <;> omega
      · have h3 := hlb.2.2 hy
        cases steep <;> simp at h3 ⊢ <;> omega

/-- Monotone pixel coordinates: each component of the rasterised pixel
sequence is monotone (one direction per component), because the dominant
axis only steps forward and the other axis only steps in the fixed `ystep`
direction. -/
theorem rasterize_mono (x1 y1 x2 y2 : ℤ) :
    ((rasterize x1 y1 x2 y2).Pairwise (fun p q => p.1 ≤ q.1) ∨
      (rasterize x1 y1 x2 y2).Pairwise (fun p q => q.1 ≤ p.1)) ∧
    ((rasterize x1 y1 x2 y2).Pairwise (fun p q => p.2 ≤ q.2) ∨
      (rasterize x1 y1 x2 y2).Pairwise (fun p q => q.2 ≤ p.2)) := by
  have main : ∀ (q1 q2 : ℤ × ℤ) (steep : Bool),
      ((bresRun q1 q2 steep).Pairwise (fun p q => p.1 ≤ q.1) ∨
        (bresRun q1 q2 steep).Pairwise (fun p q => q.1 ≤ p.1)) ∧
      ((bresRun q1 q2 steep).Pairwise (fun p q => p.2 ≤ q.2) ∨
        (bresRun q1 q2 steep).Pairwise (fun p q => q.2 ≤ p.2)) := by
    intro q1 q2 steep
    have hpw := bresLoop_pairwise (q2.1 - q1.1) ((q2.2 - q1.2).natAbs)
      (if q1.2 < q2.2 then 1 else -1) steep
      ((q2.1 - q1.1).toNat + 1) q1.1 q1.2 (q2.1 - q1.1)
    unfold bresRun
    by_cases hyd : q1.2 < q2.2
    · rw [if_pos hyd] at hpw ⊢
      cases steep
      · constructor
        · exact Or.inl (hpw.imp (fun h => by simpa using h.1))
        · exact Or.inl (hpw.imp (fun h => by simpa using h.2.1 (by omega)))
      · constructor
        · exact Or.inl (hpw.imp (fun h => by simpa using h.2.1 (by omega)))
        · exact Or.inl (hpw.imp (fun h => by simpa using h.1))
    · rw [if_neg hyd] at hpw ⊢
      cases steep
      · constructor
        · exact Or.inl (hpw.imp (fun h => by simpa using h.1))
        · exact Or.inr (hpw.imp (fun h => by simpa using h.2.2 (by omega)))
      · constructor
        · exact Or.inr (hpw.imp (fun h => by simpa using h.2.2 (by omega)))
        · exact Or.inl (hpw.imp (fun h => by simpa using h.1))
  unfold rasterize
  by_cases hst : (y2 - y1).natAbs > (x2 - x1).natAbs
  · rw [if_pos hst]
    exact main _ _ true
  · rw [if_neg hst]
    exact main _ _ false

theorem dropWhile_head_false (p : α → Bool) :
    ∀ (l : List α) (h : α) (rest : List α), l.dropWhile p = h :: rest →
      p h = false
  | [], h, rest => by intro hc; cases hc
  | x :: l, h, rest => by
    intro hc
    by_cases hx : p x
    · rw [List.dropWhile_cons_of_pos hx] at hc
      exact dropWhile_head_false p l h rest hc
    · rw [List.dropWhile_cons_of_neg hx] at hc
      cases hc
      exact Bool.eq_false_iff.mpr hx

theorem sublist_three (u v w : α) (l1 l2 l3 l4 : List α) :
    List.Sublist [u, v, w] (l1 ++ u :: (l2 ++ v :: (l3 ++ w :: l4))) := by
  have t3 : List.Sublist [w] (w :: l4) := (List.nil_sublist l4).cons₂ w
  have t3' : List.Sublist [w] (l3 ++ w :: l4) :=
    t3.trans (List.sublist_append_right l3 (w :: l4))
  have t2 : List.Sublist [v, w] (v :: (l3 ++ w :: l4)) := t3'.cons₂ v
  have t2' : List.Sublist [v, w] (l2 ++ v :: (l3 ++ w :: l4)) :=
    t2.trans (List.sublist_append_right l2 _)
  have t1 : List.Sublist [u, v, w] (u :: (l2 ++ v :: (l3 ++ w :: l4))) :=
    t2'.cons₂ u
  exact t1.trans (List.sublist_append_right l1 _)

theorem exists_convex_split (p : α → Bool) :
    ∀ l : List α,
      (∀ (l1 : List α) (u : α) (l2 : List α) (v : α) (l3 : List α) (w : α)
        (l4 : List α), l = l1 ++ u :: (l2 ++ v :: (l3 ++ w :: l4)) →
        p u = true → p w = true → p v = true) →
      ∃ pre mid post, l = pre ++ mid ++ post ∧
        (∀ a ∈ pre, p a = false) ∧ (∀ a ∈ mid, p a = true) ∧
        (∀ a ∈ post, p a = false)
  | [], _ => ⟨[], [], [], rfl, by simp, by simp, by simp⟩
  | x :: l, hconv => by
    by_cases hx : p x
    · refine ⟨[], x :: l.takeWhile p, l.dropWhile p, ?_, by simp, ?_, ?_⟩
      · simp [List.takeWhile_append_dropWhile]
      · intro a ha
        rcases List.mem_cons.mp ha with rfl | ha2
        · exact hx
        · exact List.mem_takeWhile_imp ha2
      · intro a ha
        cases hdw : l.dropWhile p with
        | nil => rw [hdw] at ha; cases ha
        | cons h rest =>
          rw [hdw] at ha
          have hh : p h = false := dropWhile_head_false p l h rest hdw
          rcases List.mem_cons.mp ha with rfl | ha2
          · exact hh
          · rcases List.append_of_mem ha2 with ⟨r1, r2, rfl⟩
            by_cases hpa : p a
            · exfalso
              have hsplit : x :: l
                  = [] ++ x :: (l.takeWhile p ++ h :: (r1 ++ a :: r2)) := by
                rw [List.nil_append]
                congr 1
                rw [← hdw, List.takeWhile_append_dropWhile]
              have := hconv [] x (l.takeWhile p) h r1 a r2 hsplit hx hpa
              rw [this] at hh
              cases hh
            · exact Bool.eq_false_iff.mpr hpa
    · have hconv2 : ∀ (l1 : List α) (u : α) (l2 : List α) (v : α) (l3 : List α)
          (w : α) (l4 : List α), l = l1 ++ u :: (l2 ++ v :: (l3 ++ w :: l4)) →
          p u = true → p w = true → p v = true := by
        intro l1 u l2 v l3 w l4 hdec hu hw
        exact hconv (x :: l1) u l2 v l3 w l4 (by rw [hdec]; rfl) hu hw
      rcases exists_convex_split p l hconv2 with ⟨pre, mid, post, hdec, h1, h2, h3⟩
      refine ⟨x :: pre, mid, post, by rw [hdec]; rfl, ?_, h2, h3⟩
      intro a ha
      rcases List.mem_cons.mp ha with rfl | ha2
      · exact Bool.eq_false_iff.mpr hx
      · exact h1 a ha2

theorem conv3_of_mono (img : Img) (l : List (ℤ × ℤ))
    (h1 : l.Pairwise (fun p q => p.1 ≤ q.1) ∨ l.Pairwise (fun p q => q.1 ≤ p.1))
    (h2 : l.Pairwise (fun p q => p.2 ≤ q.2) ∨ l.Pairwise (fun p q => q.2 ≤ p.2)) :
    ∀ (l1 : List (ℤ × ℤ)) (u : ℤ × ℤ) (l2 : List (ℤ × ℤ)) (v : ℤ × ℤ)
      (l3 : List (ℤ × ℤ)) (w : ℤ × ℤ) (l4 : List (ℤ × ℤ)),
      l = l1 ++ u :: (l2 ++ v :: (l3 ++ w :: l4)) →
      inBoundsPix img u = true → inBoundsPix img w = true →
      inBoundsPix img v = true := by
  intro l1 u l2 v l3 w l4 hdec hu hw
  have hsub : List.Sublist [u, v, w] l := by
    rw [hdec]
    exact sublist_three u v w l1 l2 l3 l4
  have hget : ∀ (r : ℤ × ℤ → ℤ × ℤ → Prop), l.Pairwise r → r u v ∧ r v w := by
    intro r hr
    have h3 := hr.sublist hsub
    rcases List.pairwise_cons.mp h3 with ⟨huv, h4⟩
    rcases List.pairwise_cons.mp h4 with ⟨hvw, _⟩
    exact ⟨huv v (List.mem_cons_self _ _),
      hvw w (List.mem_cons_self _ _)⟩
  unfold inBoundsPix at *
  simp only [Bool.and_eq_true, decide_eq_true_eq] at hu hw ⊢
  have c1 : (u.1 ≤ v.1 ∧ v.1 ≤ w.1) ∨ (w.1 ≤ v.1 ∧ v.1 ≤ u.1) := by
    rcases h1 with h | h
    · exact Or.inl (hget _ h)
    · exact Or.inr ⟨(hget _ h).2, (hget _ h).1⟩
  have c2 : (u.2 ≤ v.2 ∧ v.2 ≤ w.2) ∨ (w.2 ≤ v.2 ∧ v.2 ≤ u.2) := by
    rcases h2 with h | h
    · exact Or.inl (hget _ h)
    · exact Or.inr ⟨(hget _ h).2, (hget _ h).1⟩
  rcases c1 with ⟨ha, hb⟩ | ⟨ha, hb⟩ <;> rcases c2 with ⟨hc, hd⟩ | ⟨hc, hd⟩ <;>
    omega

theorem scanRun_cons_oob (img : Img) (m : ℕ) (p : ℤ × ℤ)
    (rest : List (ℤ × ℤ)) (hits : ℕ) (hp : inBoundsPix img p = false) :
    scanRun img m (p :: rest) hits = scanRun img m rest hits := by
  conv_lhs => unfold scanRun
  rw [if_neg (by simp [hp])]

theorem scanRun_cons_bright (img : Img) (m : ℕ) (p : ℤ × ℤ)
    (rest : List (ℤ × ℤ)) (hits : ℕ) (hp : inBoundsPix img p = true)
    (hbr : ¬ brightness (img.pix p.1 p.2) < DARK_THRESHOLD) :
    scanRun img m (p :: rest) hits = scanRun img m rest 0 := by
  conv_lhs => unfold scanRun
  rw [if_pos hp, if_neg hbr]

theorem scanRun_cons_dark (img : Img) (m : ℕ) (p : ℤ × ℤ)
    (rest : List (ℤ × ℤ)) (hits : ℕ) (hp : inBoundsPix img p = true)
    (hbr : brightness (img.pix p.1 p.2) < DARK_THRESHOLD)
    (hm : ¬ m ≤ hits + 1) :
    scanRun img m (p :: rest) hits = scanRun img m rest (hits + 1) := by
  conv_lhs => unfold scanRun
  rw [if_pos hp, if_pos hbr, if_neg hm]

theorem scanRun_cons_dark_hit (img : Img) (m : ℕ) (p : ℤ × ℤ)
    (rest : List (ℤ × ℤ)) (hits : ℕ) (hp : inBoundsPix img p = true)
    (hbr : brightness (img.pix p.1 p.2) < DARK_THRESHOLD)
    (hm : m ≤ hits + 1) :
    scanRun img m (p :: rest) hits = true := by
  conv_lhs => unfold scanRun
  rw [if_pos hp, if_pos hbr, if_pos hm]

theorem scan_all_oob (img : Img) : ∀ (l : List (ℤ × ℤ)) (hits : ℕ),
    (∀ a ∈ l, inBoundsPix img a = false) → scanRun img 3 l hits = false
  | [], _ => fun _ => rfl
  | p :: rest, hits => by
    intro h
    rw [scanRun_cons_oob img 3 p rest hits (h p (List.mem_cons_self _ _))]
    exact scan_all_oob img rest hits
      (fun a ha => h a (List.mem_cons_of_mem _ ha))

theorem scan_skip_prefix (img : Img) :
    ∀ (pre l : List (ℤ × ℤ)) (hits : ℕ),
      (∀ a ∈ pre, inBoundsPix img a = false) →
      scanRun img 3 (pre ++ l) hits = scanRun img 3 l hits
  | [], l, hits => by intro _; rw [List.nil_append]
  | p :: pre, l, hits => by
    intro h
    rw [List.cons_append,
      scanRun_cons_oob img 3 p (pre ++ l) hits (h p (List.mem_cons_self _ _))]
    exact scan_skip_prefix img pre l hits
      (fun a ha => h a (List.mem_cons_of_mem _ ha))

theorem scan_drop_suffix (img : Img) :
    ∀ (mid post : List (ℤ × ℤ)) (hits : ℕ),
      (∀ a ∈ post, inBoundsPix img a = false) →
      scanRun img 3 (mid ++ post) hits = scanRun img 3 mid hits
  | [], post, hits => by
    intro h
    rw [List.nil_append]
    simp only [scanRun]
    exact scan_all_oob img post hits h
  | p :: mid, post, hits => by
    intro h
    rw [List.cons_append]
    by_cases hp : inBoundsPix img p = true
    · by_cases hbr : brightness (img.pix p.1 p.2) < DARK_THRESHOLD
      · by_cases hm : (3:ℕ) ≤ hits + 1
        · rw [scanRun_cons_dark_hit img 3 p (mid ++ post) hits hp hbr hm,
            scanRun_cons_dark_hit img 3 p mid hits hp hbr hm]
        · rw [scanRun_cons_dark img 3 p (mid ++ post) hits hp hbr hm,
            scanRun_cons_dark img 3 p mid hits hp hbr hm]
          exact scan_drop_suffix img mid post (hits + 1) h
      · rw [scanRun_cons_bright img 3 p (mid ++ post) hits hp hbr,
          scanRun_cons_bright img 3 p mid hits hp hbr]
        exact scan_drop_suffix img mid post 0 h
    · have hp' : inBoundsPix img p = false := Bool.eq_false_iff.mpr hp
      rw [scanRun_cons_oob img 3 p (mid ++ post) hits hp',
        scanRun_cons_oob img 3 p mid hits hp']
      exact scan_drop_suffix img mid post hits h

theorem darkRun_nil (img : Img) : ¬ DarkRun img [] := by
  rintro ⟨l1, p1, p2, p3, l2, heq, -, -, -⟩
  have hlen := congrArg List.length heq
  simp only [List.length_nil, List.length_append, List.length_cons] at hlen
  omega

theorem darkRun_cons_iff (img : Img) (a : ℤ × ℤ) (l : List (ℤ × ℤ)) :
    DarkRun img (a :: l) ↔
      ((∃ p2 p3 l2, l = p2 :: p3 :: l2 ∧ darkAt img a = true ∧
        darkAt img p2 = true ∧ darkAt img p3 = true) ∨ DarkRun img l) := by
  constructor
  · rintro ⟨l1, p1, p2, p3, l2, heq, d1, d2, d3⟩
    cases l1 with
    | nil =>
      rw [List.nil_append] at heq
      injection heq with h1 h2
      exact Or.inl ⟨p2, p3, l2, h2, h1 ▸ d1, d2, d3⟩
    | cons b l1' =>
      rw [List.cons_append] at heq
      injection heq with h1 h2
      exact Or.inr ⟨l1', p1, p2, p3, l2, h2, d1, d2, d3⟩
  · rintro (⟨p2, p3, l2, heq, d1, d2, d3⟩ | ⟨l1, p1, p2, p3, l2, heq, d1, d2, d3⟩)
    · exact ⟨[], a, p2, p3, l2, by rw [heq]; rfl, d1, d2, d3⟩
    · exact ⟨a :: l1, p1, p2, p3, l2, by rw [heq]; rfl, d1, d2, d3⟩

theorem darkRun_append_left (img : Img) (pre l : List (ℤ × ℤ))
    (h : DarkRun img l) : DarkRun img (pre ++ l) := by
  obtain ⟨l1, p1, p2, p3, l2, heq, d1, d2, d3⟩ := h
  exact ⟨pre ++ l1, p1, p2, p3, l2, by rw [heq, List.append_assoc], d1, d2, d3⟩

theorem darkRun_of_take (img : Img) (l : List (ℤ × ℤ)) (j : ℕ)
    (h3 : 3 ≤ j) (hdk : ∀ a ∈ l.take j, darkAt img a = true)
    (hlen : j ≤ l.length) : DarkRun img l := by
  match l with
  | [] => simp only [List.length_nil] at hlen; omega
  | [p1] => simp only [List.length_cons, List.length_nil] at hlen; omega
  | [p1, p2] => simp only [List.length_cons, List.length_nil] at hlen; omega
  | p1 :: p2 :: p3 :: rest =>
    obtain ⟨j', rfl⟩ : ∃ j', j = j' + 3 := ⟨j - 3, by omega⟩
    have hexp : (p1 :: p2 :: p3 :: rest).take (j' + 3)
        = p1 :: p2 :: p3 :: rest.take j' := rfl
    refine ⟨[], p1, p2, p3, rest, rfl, ?_, ?_, ?_⟩
    · exact hdk p1 (by rw [hexp]; exact List.mem_cons_self _ _)
    · exact hdk p2 (by
        rw [hexp]
        exact List.mem_cons_of_mem _ (List.mem_cons_self _ _))
    · exact hdk p3 (by
        rw [hexp]
        exact List.mem_cons_of_mem _ (List.mem_cons_of_mem _
          (List.mem_cons_self _ _)))

theorem scan_core (img : Img) :
    ∀ (l : List (ℤ × ℤ)) (c : ℕ),
      (∀ a ∈ l, inBoundsPix img a = true) → c ≤ 2 →
      (scanRun img 3 l c = true ↔
        (∃ j : ℕ, 3 ≤ j + c ∧ j ≤ l.length ∧
          ∀ a ∈ l.take j, darkAt img a = true) ∨ DarkRun img l)
  | [], c => by
    intro _ hc
    simp only [scanRun]
    constructor
    · intro h; cases h
    · rintro (⟨j, h3, hj, -⟩ | hdr)
      · simp only [List.length_nil, Nat.le_zero] at hj
        omega
      · exact absurd hdr (darkRun_nil img)
  | a :: l, c => by
    intro hin hc
    have ha : inBoundsPix img a = true := hin a (List.mem_cons_self _ _)
    have hin' : ∀ b ∈ l, inBoundsPix img b = true :=
      fun b hb => hin b (List.mem_cons_of_mem _ hb)
    by_cases hbr : brightness (img.pix a.1 a.2) < DARK_THRESHOLD
    · have hda : darkAt img a = true := by
        unfold darkAt
        rw [ha]
        simp [hbr]
      by_cases h3 : (3:ℕ) ≤ c + 1
      · rw [scanRun_cons_dark_hit img 3 a l c ha hbr h3]
        have hc2 : c = 2 := by omega
        subst hc2
        constructor
        · intro _
          left
          refine ⟨1, by omega, by simp only [List.length_cons]; omega, ?_⟩
          intro b hb
          simp only [List.take_succ_cons, List.take_zero] at hb
          rw [List.mem_singleton] at hb
          rw [hb]
          exact hda
        · intro _; rfl
      · rw [scanRun_cons_dark img 3 a l c ha hbr h3]
        rw [scan_core img l (c + 1) hin' (by omega)]
        constructor
        · rintro (⟨j, hj3, hjl, hdk⟩ | hdr)
          · left
            refine ⟨j + 1, by omega,
              by simp only [List.length_cons]; omega, ?_⟩
            intro b hb
            rw [List.take_succ_cons] at hb
            rcases List.mem_cons.mp hb with rfl | hb2
            · exact hda
            · exact hdk b hb2
          · right
            rw [darkRun_cons_iff]
            exact Or.inr hdr
        · rintro (⟨j, hj3, hjl, hdk⟩ | hdr)
          · cases j with
            | zero => omega
            | succ j' =>
              left
              refine ⟨j', by omega, ?_, ?_⟩
              · simp only [List.length_cons] at hjl; omega
              · intro b hb
                apply hdk
                rw [List.take_succ_cons]
                exact List.mem_cons_of_mem _ hb
          · rw [darkRun_cons_iff] at hdr
            rcases hdr with ⟨p2, p3, l2, heq, -, d2, d3⟩ | hdr2
            · left
              refine ⟨2, by omega, ?_, ?_⟩
              · rw [heq]; simp only [List.length_cons]; omega
              · intro b hb
                rw [heq] at hb
                simp only [List.take_succ_cons, List.take_zero] at hb
                rcases List.mem_cons.mp hb with rfl | hb2
                · exact d2
                · rw [List.mem_singleton] at hb2
                  rw [hb2]
                  exact d3
            · exact Or.inr hdr2
    · have hnda : darkAt img a = false := by
        unfold darkAt
        simp [hbr]
      rw [scanRun_cons_bright img 3 a l c ha hbr]
      rw [scan_core img l 0 hin' (by omega)]
      constructor
      · rintro (⟨j, hj3, hjl, hdk⟩ | hdr)
        · right
          rw [darkRun_cons_iff]
          exact Or.inr (darkRun_of_take img l j (by omega) hdk hjl)
        · right
          rw [darkRun_cons_iff]
          exact Or.inr hdr
      · rintro (⟨j, hj3, hjl, hdk⟩ | hdr)
        · cases j with
          | zero => omega
          | succ j' =>
            exfalso
            have hcon : darkAt img a = true := hdk a (by
              rw [List.take_succ_cons]
              exact List.mem_cons_self _ _)
            rw [hnda] at hcon
            cases hcon
        · rw [darkRun_cons_iff] at hdr
          rcases hdr with ⟨p2, p3, l2, heq, d1, -, -⟩ | hdr2
          · rw [hnda] at d1
            cases d1
          · exact Or.inr hdr2

theorem scan_darkRun_iff (img : Img) (l : List (ℤ × ℤ))
    (hin : ∀ a ∈ l, inBoundsPix img a = true) :
    (scanRun img 3 l 0 = true ↔ DarkRun img l) := by
  rw [scan_core img l 0 hin (by omega)]
  constructor
  · rintro (⟨j, hj3, hjl, hdk⟩ | hdr)
    · exact darkRun_of_take img l j (by omega) hdk hjl
    · exact hdr
  · exact Or.inr

theorem window_skip_prefix (q : α → Bool) :
    ∀ (pre rest l1 l2 : List α) (p1 p2 p3 : α),
      pre ++ rest = l1 ++ p1 :: p2 :: p3 :: l2 →
      (∀ a ∈ pre, q a = false) → q p1 = true →
      ∃ m1 m2, rest = m1 ++ p1 :: p2 :: p3 :: m2
  | [], rest, l1, l2, p1, p2, p3 => by
    intro heq _ _
    rw [List.nil_append] at heq
    exact ⟨l1, l2, heq⟩
  | x :: pre, rest, l1, l2, p1, p2, p3 => by
    intro heq hf hq
    cases l1 with
    | nil =>
      rw [List.nil_append, List.cons_append] at heq
      injection heq with h1 h2
      exfalso
      have hx := hf x (List.mem_cons_self _ _)
      rw [h1, hq] at hx
      cases hx
    | cons y l1' =>
      rw [List.cons_append, List.cons_append] at heq
      injection heq with h1 h2
      exact window_skip_prefix q pre rest l1' l2 p1 p2 p3 h2
        (fun a ha => hf a (List.mem_cons_of_mem _ ha)) hq

theorem window_in_prefix (q : α → Bool) :
    ∀ (l1 mid post l2 : List α) (p1 p2 p3 : α),
      mid ++ post = l1 ++ p1 :: p2 :: p3 :: l2 →
      (∀ a ∈ post, q a = false) →
      q p1 = true → q p2 = true → q p3 = true →
      ∃ m1 m2, mid = m1 ++ p1 :: p2 :: p3 :: m2
  | [], mid, post, l2, p1, p2, p3 => by
    intro heq hf h1 h2 h3
    rw [List.nil_append] at heq
    cases mid with
    | nil =>
      rw [List.nil_append] at heq
      exfalso
      have := hf p1 (by rw [heq]; exact List.mem_cons_self _ _)
      rw [this] at h1
      cases h1
    | cons m mid' =>
      rw [List.cons_append] at heq
      injection heq with e1 e2
      cases mid' with
      | nil =>
        rw [List.nil_append] at e2
        exfalso
        have := hf p2 (by rw [e2]; exact List.mem_cons_self _ _)
        rw [this] at h2
        cases h2
      | cons m2' mid'' =>
        rw [List.cons_append] at e2
        injection e2 with e3 e4
        cases mid'' with
        | nil =>
          rw [List.nil_append] at e4
          exfalso
          have := hf p3 (by rw [e4]; exact List.mem_cons_self _ _)
          rw [this] at h3
          cases h3
        | cons m3' mid''' =>
          rw [List.cons_append] at e4
          injection e4 with e5 e6
          refine ⟨[], mid''', ?_⟩
          rw [e1, e3, e5]
          rfl
  | y :: l1', mid, post, l2, p1, p2, p3 => by
    intro heq hf h1 h2 h3
    cases mid with
    | nil =>
      rw [List.nil_append, List.cons_append] at heq
      exfalso
      have hp1 : p1 ∈ post := by
        rw [heq]
        exact List.mem_cons_of_mem _
          (List.mem_append_right l1' (List.mem_cons_self _ _))
      have := hf p1 hp1
      rw [this] at h1
      cases h1
    | cons m mid' =>
      rw [List.cons_append, List.cons_append] at heq
      injection heq with e1 e2
      rcases window_in_prefix q l1' mid' post l2 p1 p2 p3 e2 hf h1 h2 h3 with
        ⟨m1, m2, hm⟩
      exact ⟨m :: m1, m2, by rw [hm]; rfl⟩

theorem darkRun_split_iff (img : Img) (pre mid post : List (ℤ × ℤ))
    (hpre : ∀ a ∈ pre, inBoundsPix img a = false)
    (hpost : ∀ a ∈ post, inBoundsPix img a = false) :
    (DarkRun img (pre ++ mid ++ post) ↔ DarkRun img mid) := by
  constructor
  · rintro ⟨l1, p1, p2, p3, l2, heq, d1, d2, d3⟩
    have hb1 : inBoundsPix img p1 = true := by
      simp only [darkAt, Bool.and_eq_true] at d1
      exact d1.1
    have hb2 : inBoundsPix img p2 = true := by
      simp only [darkAt, Bool.and_eq_true] at d2
      exact d2.1
    have hb3 : inBoundsPix img p3 = true := by
      simp only [darkAt, Bool.and_eq_true] at d3
      exact d3.1
    have heq' : pre ++ (mid ++ post) = l1 ++ p1 :: p2 :: p3 :: l2 := by
      rw [← List.append_assoc]
      exact heq
    rcases window_skip_prefix (inBoundsPix img) pre (mid ++ post) l1 l2
      p1 p2 p3 heq' hpre hb1 with ⟨m1, m2, hm⟩
    rcases window_in_prefix (inBoundsPix img) m1 mid post m2 p1 p2 p3 hm
      hpost hb1 hb2 hb3 with ⟨n1, n2, hn⟩
    exact ⟨n1, p1, p2, p3, n2, hn, d1, d2, d3⟩
  · intro h
    have h2 : DarkRun img (mid ++ post) := by
      obtain ⟨l1, p1, p2, p3, l2, heq, d1, d2, d3⟩ := h
      refine ⟨l1, p1, p2, p3, l2 ++ post, ?_, d1, d2, d3⟩
      rw [heq]
      simp [List.append_assoc]
    rw [List.append_assoc]
    exact darkRun_append_left img pre (mid ++ post) h2

/-- **C6**: outside the documented early-exit (both endpoints off the image,
which the spec treats as "no collision"), the obstruction check declares the
segment blocked exactly when the margin-trimmed sampled path pixels contain a
run of at least three consecutive dark pixels (brightness below the
threshold: channel mean for RGB, the single channel for grayscale); in
particular a single isolated dark pixel never causes a blockage. -/
theorem has_collision_iff_dark_run (a b : Node) (img : Img) (sx sy : ℚ)
    (hoob : ¬(endpointOOB img (intTrunc (a.x * sx)) (intTrunc (a.y * sy)) = true ∧
      endpointOOB img (intTrunc (b.x * sx)) (intTrunc (b.y * sy)) = true)) :
    (has_collision a b (some img) sx sy = true ↔
      DarkRun img (sampledPixels a b sx sy)) := by
  have hAB : (endpointOOB img (intTrunc (a.x * sx)) (intTrunc (a.y * sy)) &&
      endpointOOB img (intTrunc (b.x * sx)) (intTrunc (b.y * sy))) = false := by
    cases h : (endpointOOB img (intTrunc (a.x * sx)) (intTrunc (a.y * sy)) &&
        endpointOOB img (intTrunc (b.x * sx)) (intTrunc (b.y * sy)))
    · rfl
    · exfalso
      rw [Bool.and_eq_true] at h
      exact hoob h
  have hred : has_collision a b (some img) sx sy
      = scanRun img 3 (sampledPixels a b sx sy) 0 := by
    simp only [has_collision]
    rw [if_neg (by simp [hAB])]
  obtain ⟨hm1, hm2⟩ := rasterize_mono (intTrunc (a.x * sx)) (intTrunc (a.y * sy))
    (intTrunc (b.x * sx)) (intTrunc (b.y * sy))
  have hsub : List.Sublist (sampledPixels a b sx sy)
      (rasterize (intTrunc (a.x * sx)) (intTrunc (a.y * sy))
        (intTrunc (b.x * sx)) (intTrunc (b.y * sy))) := by
    simp only [sampledPixels]
    by_cases hl : (rasterize (intTrunc (a.x * sx)) (intTrunc (a.y * sy))
        (intTrunc (b.x * sx)) (intTrunc (b.y * sy))).length ≤ 10
    · rw [if_pos hl]
    · rw [if_neg hl]
      exact (List.take_sublist _ _).trans (List.drop_sublist _ _)
  have hc1 : (sampledPixels a b sx sy).Pairwise (fun p q => p.1 ≤ q.1) ∨
      (sampledPixels a b sx sy).Pairwise (fun p q => q.1 ≤ p.1) :=
    hm1.imp (fun h => h.sublist hsub) (fun h => h.sublist hsub)
  have hc2 : (sampledPixels a b sx sy).Pairwise (fun p q => p.2 ≤ q.2) ∨
      (sampledPixels a b sx sy).Pairwise (fun p q => q.2 ≤ p.2) :=
    hm2.imp (fun h => h.sublist hsub) (fun h => h.sublist hsub)
  obtain ⟨pre, mid, post, hdec, hpre, hmid, hpost⟩ :=
    exists_convex_split (inBoundsPix img) (sampledPixels a b sx sy)
      (conv3_of_mono img (sampledPixels a b sx sy) hc1 hc2)
  have e1 : scanRun img 3 (sampledPixels a b sx sy) 0 = scanRun img 3 mid 0 := by
    rw [hdec, List.append_assoc, scan_skip_prefix img pre (mid ++ post) 0 hpre,
      scan_drop_suffix img mid post 0 hpost]
  have e2 : (DarkRun img (sampledPixels a b sx sy) ↔ DarkRun img mid) := by
    rw [hdec]
    exact darkRun_split_iff img pre mid post hpre hpost
  rw [hred, e1, e2]
  exact scan_darkRun_iff img mid hmid

/-- Witness for **C6** on a concrete 20-by-1 grayscale strip with a dark band
of width three: the hypothesis (at least one endpoint on the image) holds and
the characterisation applies. -/
theorem has_collision_iff_dark_run_witness :
    (¬(endpointOOB
        ⟨20, 1, fun px _ => if 8 ≤ px ∧ px ≤ 10 then PixelVal.gray 0
          else PixelVal.gray 255⟩
        (intTrunc ((⟨"a", "G", "room", 0, 0⟩ : Node).x * 1))
        (intTrunc ((⟨"a", "G", "room", 0, 0⟩ : Node).y * 1)) = true ∧
      endpointOOB
        ⟨20, 1, fun px _ => if 8 ≤ px ∧ px ≤ 10 then PixelVal.gray 0
          else PixelVal.gray 255⟩
        (intTrunc ((⟨"b", "G", "room", 19, 0⟩ : Node).x * 1))
        (intTrunc ((⟨"b", "G", "room", 19, 0⟩ : Node).y * 1)) = true)) ∧
    (has_collision (⟨"a", "G", "room", 0, 0⟩ : Node)
        (⟨"b", "G", "room", 19, 0⟩ : Node)
        (some ⟨20, 1, fun px _ => if 8 ≤ px ∧ px ≤ 10 then PixelVal.gray 0
          else PixelVal.gray 255⟩) 1 1 = true ↔
      DarkRun
        ⟨20, 1, fun px _ => if 8 ≤ px ∧ px ≤ 10 then PixelVal.gray 0
          else PixelVal.gray 255⟩
        (sampledPixels (⟨"a", "G", "room", 0, 0⟩ : Node)
          (⟨"b", "G", "room", 19, 0⟩ : Node) 1 1)) :=
  ⟨by with_unfolding_all decide,
    has_collision_iff_dark_run (⟨"a", "G", "room", 0, 0⟩ : Node)
      (⟨"b", "G", "room", 19, 0⟩ : Node) _ 1 1
      (by with_unfolding_all decide)⟩

theorem canonKey_comm (a b : String) : canonKey a b = canonKey b a := by
  unfold canonKey
  by_cases h1 : strLe a b = true
  · by_cases h2 : strLe b a = true
    · rw [if_pos h1, if_pos h2, strLe_antisymm a b h1 h2]
    · rw [if_pos h1, if_neg h2]
  · have h2 : strLe b a = true :=
      strLe_of_not_strLe a b (Bool.eq_false_iff.mpr h1)
    rw [if_neg h1, if_pos h2]

theorem edgeExtends_trans (E1 E2 E3 : EdgeList) (h1 : edgeExtends E1 E2)
    (h2 : edgeExtends E2 E3) : edgeExtends E1 E3 :=
  fun k hk => h2 k (h1 k hk)

theorem edgeExtends_add_edge (E : EdgeList) (a b : String) (d : ℚ)
    (acc : Bool) : edgeExtends E (add_edge E a b d acc) := by
  intro k hk
  rw [lookupEdge_add_edge]
  by_cases h : canonKey a b = k
  · rw [if_pos h]
    cases hl : lookupEdge E k with
    | none => rfl
    | some w => by_cases hd : d < w.1 <;> simp [hd]
  · rw [if_neg h]
    exact hk

theorem lookupEdge_add_edge_self (E : EdgeList) (a b : String) (d : ℚ)
    (acc : Bool) :
    (lookupEdge (add_edge E a b d acc) (canonKey a b)).isSome = true := by
  rw [lookupEdge_add_edge, if_pos rfl]
  cases hl : lookupEdge E (canonKey a b) with
  | none => rfl
  | some w => by_cases hd : d < w.1 <;> simp [hd]

theorem hasEdge_comm (E : EdgeList) (a b : String) (h : hasEdge E a b) :
    hasEdge E b a := by
  unfold hasEdge at *
  rw [canonKey_comm b a]
  exact h

theorem floorAdj_symm (nodes : List Node) (E : EdgeList) :
    ∀ a b, floorAdj nodes E a b → floorAdj nodes E b a :=
  fun a b h => ⟨hasEdge_comm E a b h.1, h.2.symm⟩

theorem floorConnected_symm (nodes : List Node) (E : EdgeList) (a b : String)
    (h : FloorConnected nodes E a b) : FloorConnected nodes E b a := by
  unfold FloorConnected at *
  exact Relation.ReflTransGen.symmetric
    (fun x y hxy => floorAdj_symm nodes E x y hxy) h

theorem buildAdj_mem_aux (nodes : List Node) :
    ∀ (es : EdgeList) (acc : List (String × String)) (p : String × String),
      p ∈ es.foldl (fun acc e =>
        if (getNode nodes e.1.1).floor = (getNode nodes e.1.2).floor then
          acc ++ [(e.1.1, e.1.2), (e.1.2, e.1.1)]
        else acc) acc →
      p ∈ acc ∨ ∃ e ∈ es, (p = (e.1.1, e.1.2) ∨ p = (e.1.2, e.1.1)) ∧
        (getNode nodes e.1.1).floor = (getNode nodes e.1.2).floor
  | [], acc, p => fun h => Or.inl h
  | e :: es, acc, p => by
    intro h
    rw [List.foldl_cons] at h
    rcases buildAdj_mem_aux nodes es _ p h with h2 | ⟨e2, he2, hp⟩
    · by_cases hf : (getNode nodes e.1.1).floor = (getNode nodes e.1.2).floor
      · rw [if_pos hf] at h2
        rcases List.mem_append.mp h2 with h3 | h3
        · exact Or.inl h3
        · right
          refine ⟨e, List.mem_cons_self _ _, ?_, hf⟩
          rcases List.mem_cons.mp h3 with rfl | h4
          · exact Or.inl rfl
          · rw [List.mem_singleton] at h4
            exact Or.inr h4
      · rw [if_neg hf] at h2
        exact Or.inl h2
    · exact Or.inr ⟨e2, List.mem_cons_of_mem _ he2, hp⟩

theorem buildAdj_mem (edges : EdgeList) (nodes : List Node)
    (p : String × String) (h : p ∈ buildAdj edges nodes) :
    ∃ e ∈ edges, (p = (e.1.1, e.1.2) ∨ p = (e.1.2, e.1.1)) ∧
      (getNode nodes e.1.1).floor = (getNode nodes e.1.2).floor := by
  unfold buildAdj at h
  rcases buildAdj_mem_aux nodes edges [] p h with h2 | h2
  · cases h2
  · exact h2

theorem reach_floorConnected (nodes : List Node) (edges E2 : EdgeList)
    (hcanon : ∀ e ∈ edges, canonKey e.1.1 e.1.2 = e.1)
    (hext : edgeExtends edges E2) :
    ∀ u v, Reach (buildAdj edges nodes) u v → FloorConnected nodes E2 u v := by
  intro u v h
  unfold Reach at h
  unfold FloorConnected
  refine Relation.ReflTransGen.mono ?_ h
  intro x y hxy
  unfold adjStep at hxy
  rcases buildAdj_mem edges nodes (x, y) hxy with ⟨e, he, hp, hf⟩
  have hkey : (lookupEdge edges e.1).isSome = true := by
    cases hl : lookupEdge edges e.1 with
    | some w => rfl
    | none =>
      refine absurd ?_ ((lookupEdge_none_iff e.1 edges).mp hl)
      unfold keysOf
      exact List.mem_map_of_mem _ he
  rcases hp with hp | hp
  · injection hp with hx hy
    subst hx
    subst hy
    refine ⟨?_, hf⟩
    unfold hasEdge
    apply hext
    rw [hcanon e he]
    exact hkey
  · injection hp with hx hy
    subst hx
    subst hy
    refine ⟨?_, hf.symm⟩
    unfold hasEdge
    apply hext
    rw [canonKey_comm, hcanon e he]
    exact hkey

theorem reach_floor (nodes : List Node) (edges : EdgeList) (f : String) :
    ∀ u v, Reach (buildAdj edges nodes) u v →
      (getNode nodes u).floor = f → (getNode nodes v).floor = f := by
  intro u v h
  unfold Reach at h
  induction h with
  | refl => exact id
  | tail hr hstep ih =>
    intro hu
    have hmid := ih hu
    unfold adjStep at hstep
    rcases buildAdj_mem edges nodes _ hstep with ⟨e, he, hp, hf⟩
    rcases hp with hp | hp
    · injection hp with h1 h2
      subst h1
      subst h2
      rw [← hf]
      exact hmid
    · injection hp with h1 h2
      subst h1
      subst h2
      rw [hf]
      exact hmid

theorem neighborsOf_mem (adj : List (String × String)) (u x : String)
    (h : x ∈ neighborsOf adj u) : (u, x) ∈ adj := by
  unfold neighborsOf at h
  rcases List.mem_map.mp h with ⟨p, hp, hpx⟩
  rcases List.mem_filter.mp hp with ⟨hpadj, hpu⟩
  rw [decide_eq_true_eq] at hpu
  have hpe : p = (u, x) := by
    cases p
    dsimp at hpu hpx
    rw [hpu, hpx]
  rw [← hpe]
  exact hpadj

theorem dfsGo_pred (adj : List (String × String)) (P : String → Prop)
    (hstep : ∀ u v, P u → (u, v) ∈ adj → P v) :
    ∀ (fuel : ℕ) (stack comp : List String),
      (∀ x ∈ comp, P x) → (∀ x ∈ stack, P x) →
      ∀ x ∈ dfsGo adj fuel stack comp, P x
  | 0, [], comp => by
    intro hc _ x hx
    simp only [dfsGo] at hx
    exact hc x hx
  | 0, u :: stack, comp => by
    intro hc _ x hx
    simp only [dfsGo] at hx
    exact hc x hx
  | fuel + 1, [], comp => by
    intro hc _ x hx
    simp only [dfsGo] at hx
    exact hc x hx
  | fuel + 1, u :: stack, comp => by
    intro hc hs x hx
    simp only [dfsGo] at hx
    have hcomp : ∀ y ∈ (pushNew (neighborsOf adj u) stack comp).1.2, P y := by
      intro y hy
      rcases (pushNew (neighborsOf adj u) stack comp).2.2.1 y hy with h | h
      · exact hc y h
      · exact hstep u y (hs u (List.mem_cons_self _ _))
          (neighborsOf_mem adj u y h)
    have hstk : ∀ y ∈ (pushNew (neighborsOf adj u) stack comp).1.1, P y := by
      intro y hy
      rcases (pushNew (neighborsOf adj u) stack comp).2.2.2.2.2.1 y hy with h | h
      · exact hs y (List.mem_cons_of_mem _ h)
      · exact hcomp y h
    exact dfsGo_pred adj P hstep fuel _ _ hcomp hstk x hx

theorem dfsGo_mono (adj : List (String × String)) :
    ∀ (fuel : ℕ) (stack comp : List String),
      ∀ x ∈ comp, x ∈ dfsGo adj fuel stack comp
  | 0, [], comp => by
    intro x hx
    simpa only [dfsGo] using hx
  | 0, u :: stack, comp => by
    intro x hx
    simpa only [dfsGo] using hx
  | fuel + 1, [], comp => by
    intro x hx
    simpa only [dfsGo] using hx
  | fuel + 1, u :: stack, comp => by
    intro x hx
    simp only [dfsGo]
    exact dfsGo_mono adj fuel _ _ x
      ((pushNew (neighborsOf adj u) stack comp).2.1 x hx)

theorem computeComponentsGo_cover (adj : List (String × String)) :
    ∀ (fuel : ℕ) (l : List String), l.length ≤ fuel →
      ∀ u ∈ l, ∃ c ∈ computeComponentsGo adj fuel l, u ∈ c
  | 0, [] => by
    intro _ u hu
    cases hu
  | fuel + 1, [] => by
    intro _ u hu
    cases hu
  | 0, u :: l => by
    intro h
    simp only [List.length_cons] at h
    omega
  | fuel + 1, start :: rest => by
    intro hlen u hu
    simp only [computeComponentsGo]
    rcases List.mem_cons.mp hu with rfl | hu2
    · refine ⟨_, List.mem_cons_self _ _, ?_⟩
      unfold dfsRun
      exact dfsGo_mono adj _ _ _ u (List.mem_cons_self _ _)
    · by_cases hc : u ∈ dfsRun adj [start] [start]
      · exact ⟨_, List.mem_cons_self _ _, hc⟩
      · have hu3 : u ∈ rest.filter
            (fun x => decide (x ∉ dfsRun adj [start] [start])) :=
          List.mem_filter.mpr ⟨hu2, by simp [hc]⟩
        have hlen2 : (rest.filter
            (fun x => decide (x ∉ dfsRun adj [start] [start]))).length ≤ fuel := by
          have h1 := List.length_filter_le
            (fun x => decide (x ∉ dfsRun adj [start] [start])) rest
          simp only [List.length_cons] at hlen
          omega
        rcases computeComponentsGo_cover adj fuel _ hlen2 u hu3 with ⟨c, hc1, hc2⟩
        exact ⟨c, List.mem_cons_of_mem _ hc1, hc2⟩

theorem computeComponentsGo_comp (adj : List (String × String)) :
    ∀ (fuel : ℕ) (l : List String),
      ∀ c ∈ computeComponentsGo adj fuel l,
        ∃ s, s ∈ l ∧ s ∈ c ∧ ∀ x ∈ c, Reach adj s x
  | 0, [] => by
    intro c hc
    simp only [computeComponentsGo] at hc
    cases hc
  | fuel + 1, [] => by
    intro c hc
    simp only [computeComponentsGo] at hc
    cases hc
  | 0, u :: l => by
    intro c hc
    simp only [computeComponentsGo] at hc
    cases hc
  | fuel + 1, start :: rest => by
    intro c hc
    simp only [computeComponentsGo] at hc
    rcases List.mem_cons.mp hc with rfl | hc2
    · refine ⟨start, List.mem_cons_self _ _, ?_, ?_⟩
      · unfold dfsRun
        exact dfsGo_mono adj _ _ _ start (List.mem_cons_self _ _)
      · intro x hx
        unfold dfsRun at hx
        refine dfsGo_pred adj (Reach adj start) ?_ _ _ _ ?_ ?_ x hx
        · intro a b ha hab
          exact Relation.ReflTransGen.tail ha hab
        · intro x2 hx2
          rw [List.mem_singleton] at hx2
          rw [hx2]
          exact Relation.ReflTransGen.refl
        · intro x2 hx2
          rw [List.mem_singleton] at hx2
          rw [hx2]
          exact Relation.ReflTransGen.refl
    · rcases computeComponentsGo_comp adj fuel _ c hc2 with ⟨s, hs1, hs2, hs3⟩
      exact ⟨s, List.mem_cons_of_mem _ (List.mem_of_mem_filter hs1), hs2, hs3⟩

theorem compReps_subset (corridors comp : List String) :
    ∀ y ∈ compReps corridors comp, y ∈ comp := by
  intro y hy
  simp only [compReps] at hy
  by_cases h : comp.filter (fun n => decide (n ∈ corridors)) = []
  · rw [if_pos h] at hy
    exact hy
  · rw [if_neg h] at hy
    exact List.mem_of_mem_filter hy

theorem compReps_ne_nil (corridors comp : List String) (h : comp ≠ []) :
    compReps corridors comp ≠ [] := by
  simp only [compReps]
  by_cases hf : comp.filter (fun n => decide (n ∈ corridors)) = []
  · rw [if_pos hf]
    exact h
  · rw [if_neg hf]
    exact hf

theorem compReps_pref (corridors comp : List String) :
    ((∃ x ∈ comp, x ∈ corridors) →
      ∀ y ∈ compReps corridors comp, y ∈ corridors) ∧
    ((∀ x ∈ comp, x ∉ corridors) → compReps corridors comp = comp) := by
  constructor
  · rintro ⟨x, hx, hxc⟩ y hy
    have hne : comp.filter (fun n => decide (n ∈ corridors)) ≠ [] := by
      intro h0
      have hxf : x ∈ comp.filter (fun n => decide (n ∈ corridors)) :=
        List.mem_filter.mpr ⟨hx, by simp [hxc]⟩
      rw [h0] at hxf
      cases hxf
    simp only [compReps] at hy
    rw [if_neg hne] at hy
    have h2 := (List.mem_filter.mp hy).2
    rw [decide_eq_true_eq] at h2
    exact h2
  · intro hall
    have h0 : comp.filter (fun n => decide (n ∈ corridors)) = [] := by
      rw [List.filter_eq_nil_iff]
      intro a ha
      simp [hall a ha]
    simp only [compReps]
    rw [if_pos h0]

theorem bpStep_some (nodes : List Node) (a : String)
    (best : Option (ℚ × String × String)) (b : String) :
    ∃ t, bpStep nodes a best b = some t := by
  cases best with
  | none => exact ⟨_, rfl⟩
  | some t0 =>
    by_cases h : euclid nodes a b < t0.1
    · exact ⟨_, by simp only [bpStep]; rw [if_pos h]⟩
    · exact ⟨_, by simp only [bpStep]; rw [if_neg h]⟩

theorem bpStep_le1 (nodes : List Node) (a : String)
    (t0 : ℚ × String × String) (b : String) (t : ℚ × String × String)
    (ht : bpStep nodes a (some t0) b = some t) : t.1 ≤ t0.1 := by
  simp only [bpStep] at ht
  by_cases hlt : euclid nodes a b < t0.1
  · rw [if_pos hlt] at ht
    injection ht with h
    rw [← h]
    exact le_of_lt hlt
  · rw [if_neg hlt] at ht
    injection ht with h
    rw [← h]

theorem bpStep_le2 (nodes : List Node) (a : String)
    (best : Option (ℚ × String × String)) (b : String) (t : ℚ × String × String)
    (ht : bpStep nodes a best b = some t) : t.1 ≤ euclid nodes a b := by
  cases best with
  | none =>
    simp only [bpStep] at ht
    injection ht with h
    rw [← h]
  | some t0 =>
    simp only [bpStep] at ht
    by_cases hlt : euclid nodes a b < t0.1
    · rw [if_pos hlt] at ht
      injection ht with h
      rw [← h]
    · rw [if_neg hlt] at ht
      injection ht with h
      rw [← h]
      exact le_of_not_lt hlt

theorem bpInner_some (nodes : List Node) (a : String) :
    ∀ (subset : List String) (best : Option (ℚ × String × String)),
      ((∃ t0, best = some t0) ∨ subset ≠ []) →
      ∃ t, subset.foldl (bpStep nodes a) best = some t
  | [], best => by
    rintro (⟨t0, rfl⟩ | h)
    · exact ⟨t0, rfl⟩
    · exact absurd rfl h
  | b :: rest, best => by
    intro _
    rcases bpStep_some nodes a best b with ⟨t1, ht1⟩
    rw [List.foldl_cons, ht1]
    exact bpInner_some nodes a rest (some t1) (Or.inl ⟨t1, rfl⟩)

theorem bpInner_sound (nodes : List Node) (a : String)
    (S : ℚ × String × String → Prop) :
    ∀ (subset : List String) (best : Option (ℚ × String × String)),
      (∀ t, best = some t → S t) →
      (∀ b ∈ subset, S (euclid nodes a b, a, b)) →
      ∀ t, subset.foldl (bpStep nodes a) best = some t → S t
  | [], best => by
    intro h1 _ t ht
    simp only [List.foldl_nil] at ht
    exact h1 t ht
  | b :: rest, best => by
    intro h1 h2 t ht
    rw [List.foldl_cons] at ht
    refine bpInner_sound nodes a S rest _ ?_
      (fun b2 hb2 => h2 b2 (List.mem_cons_of_mem _ hb2)) t ht
    intro t2 ht2
    cases best with
    | none =>
      simp only [bpStep] at ht2
      injection ht2 with h
      rw [← h]
      exact h2 b (List.mem_cons_self _ _)
    | some t0 =>
      simp only [bpStep] at ht2
      by_cases hlt : euclid nodes a b < t0.1
      · rw [if_pos hlt] at ht2
        injection ht2 with h
        rw [← h]
        exact h2 b (List.mem_cons_self _ _)
      · rw [if_neg hlt] at ht2
        injection ht2 with h
        rw [← h]
        exact h1 t0 rfl

theorem bpInner_mono (nodes : List Node) (a : String) :
    ∀ (subset : List String) (t0 t : ℚ × String × String),
      subset.foldl (bpStep nodes a) (some t0) = some t → t.1 ≤ t0.1
  | [], t0, t => by
    intro h
    simp only [List.foldl_nil] at h
    injection h with h
    rw [← h]
  | b :: rest, t0, t => by
    intro h
    rw [List.foldl_cons] at h
    rcases bpStep_some nodes a (some t0) b with ⟨t1, ht1⟩
    rw [ht1] at h
    exact le_trans (bpInner_mono nodes a rest t1 t h)
      (bpStep_le1 nodes a t0 b t1 ht1)

theorem bpInner_le (nodes : List Node) (a : String) :
    ∀ (subset : List String) (best : Option (ℚ × String × String))
      (b2 : String), b2 ∈ subset →
      ∀ t, subset.foldl (bpStep nodes a) best = some t →
        t.1 ≤ euclid nodes a b2
  | [], best, b2 => fun hb2 => absurd hb2 (List.not_mem_nil _)
  | b :: rest, best, b2 => by
    intro hb2 t ht
    rw [List.foldl_cons] at ht
    rcases bpStep_some nodes a best b with ⟨t1, ht1⟩
    rw [ht1] at ht
    rcases List.mem_cons.mp hb2 with rfl | hb3
    · exact le_trans (bpInner_mono nodes a rest t1 t ht)
        (bpStep_le2 nodes a best _ t1 ht1)
    · exact bpInner_le nodes a rest (some t1) b2 hb3 t ht

theorem bpOuter_mono (nodes : List Node) (subset : List String) :
    ∀ (base : List String) (t0 t : ℚ × String × String),
      base.foldl (fun best a => subset.foldl (bpStep nodes a) best) (some t0)
        = some t → t.1 ≤ t0.1
  | [], t0, t => by
    intro h
    simp only [List.foldl_nil] at h
    injection h with h
    rw [← h]
  | a :: rest, t0, t => by
    intro h
    rw [List.foldl_cons] at h
    rcases bpInner_some nodes a subset (some t0) (Or.inl ⟨t0, rfl⟩) with ⟨t1, ht1⟩
    rw [ht1] at h
    exact le_trans (bpOuter_mono nodes subset rest t1 t h)
      (bpInner_mono nodes a subset t0 t1 ht1)

theorem bpOuter_some (nodes : List Node) (subset : List String)
    (hs : subset ≠ []) :
    ∀ (base : List String) (best : Option (ℚ × String × String)),
      ((∃ t0, best = some t0) ∨ base ≠ []) →
      ∃ t, base.foldl (fun best a => subset.foldl (bpStep nodes a) best) best
        = some t
  | [], best => by
    rintro (⟨t0, rfl⟩ | h)
    · exact ⟨t0, rfl⟩
    · exact absurd rfl h
  | a :: rest, best => by
    intro _
    rcases bpInner_some nodes a subset best (Or.inr hs) with ⟨t1, ht1⟩
    rw [List.foldl_cons, ht1]
    exact bpOuter_some nodes subset hs rest (some t1) (Or.inl ⟨t1, rfl⟩)

theorem bpOuter_sound (nodes : List Node) (subset : List String)
    (S : ℚ × String × String → Prop) :
    ∀ (base : List String) (best : Option (ℚ × String × String)),
      (∀ t, best = some t → S t) →
      (∀ a ∈ base, ∀ b ∈ subset, S (euclid nodes a b, a, b)) →
      ∀ t, base.foldl (fun best a => subset.foldl (bpStep nodes a) best) best
        = some t → S t
  | [], best => by
    intro h1 _ t ht
    simp only [List.foldl_nil] at ht
    exact h1 t ht
  | a :: rest, best => by
    intro h1 h2 t ht
    rw [List.foldl_cons] at ht
    refine bpOuter_sound nodes subset S rest _ ?_
      (fun a2 ha2 => h2 a2 (List.mem_cons_of_mem _ ha2)) t ht
    intro t2 ht2
    exact bpInner_sound nodes a S subset best h1
      (h2 a (List.mem_cons_self _ _)) t2 ht2

theorem bpOuter_min (nodes : List Node) (subset : List String)
    (hs : subset ≠ []) :
    ∀ (base : List String) (best : Option (ℚ × String × String))
      (a2 : String), a2 ∈ base → ∀ b2 ∈ subset,
      ∀ t, base.foldl (fun best a => subset.foldl (bpStep nodes a) best) best
        = some t → t.1 ≤ euclid nodes a2 b2
  | [], best, a2 => fun ha2 => absurd ha2 (List.not_mem_nil _)
  | a :: rest, best, a2 => by
    intro ha2 b2 hb2 t ht
    rw [List.foldl_cons] at ht
    rcases bpInner_some nodes a subset best (Or.inr hs) with ⟨t1, ht1⟩
    rw [ht1] at ht
    rcases List.mem_cons.mp ha2 with rfl | ha3
    · exact le_trans (bpOuter_mono nodes subset rest t1 t ht)
        (bpInner_le nodes _ subset best b2 hb2 t1 ht1)
    · exact bpOuter_min nodes subset hs rest (some t1) a2 ha3 b2 hb2 t ht

theorem bestPair_spec (nodes : List Node) (base subset : List String)
    (hb : base ≠ []) (hs : subset ≠ []) :
    ∃ d a b, bestPair nodes base subset = some (d, a, b) ∧ a ∈ base ∧
      b ∈ subset ∧ d = euclid nodes a b ∧
      ∀ a2 ∈ base, ∀ b2 ∈ subset, d ≤ euclid nodes a2 b2 := by
  rcases bpOuter_some nodes subset hs base none (Or.inr hb) with ⟨t, ht⟩
  have hsound := bpOuter_sound nodes subset
    (fun t => t.2.1 ∈ base ∧ t.2.2 ∈ subset ∧ t.1 = euclid nodes t.2.1 t.2.2)
    base none (fun t h => by cases h)
    (fun a ha b hb2 => ⟨ha, hb2, rfl⟩) t ht
  obtain ⟨h1, h2, h3⟩ := hsound
  refine ⟨t.1, t.2.1, t.2.2, ?_, h1, h2, h3, ?_⟩
  · unfold bestPair
    rw [ht]
  · intro a2 ha2 b2 hb2
    exact bpOuter_min nodes subset hs base none a2 ha2 b2 hb2 t ht

theorem stitchFold_nil (nodes : List Node) (st : List String × EdgeList) :
    stitchFold nodes [] st = st := rfl

theorem stitchFold_cons (nodes : List Node) (s : List String)
    (rest : List (List String)) (st : List String × EdgeList) :
    stitchFold nodes (s :: rest) st
      = stitchFold nodes rest
          (match bestPair nodes st.1 s with
           | none => st
           | some t =>
               (st.1 ++ s,
                 add_edge st.2 t.2.1 t.2.2 (euclid nodes t.2.1 t.2.2) true)) :=
  rfl

theorem stitchFold_conn (nodes : List Node) (f : String) (E0 : EdgeList) :
    ∀ (subsets : List (List String)) (B : List String) (E : EdgeList),
      (∀ s ∈ subsets, s ≠ [] ∧ (∀ x ∈ s, (getNode nodes x).floor = f) ∧
        (∀ E2, edgeExtends E0 E2 → ∀ x ∈ s, ∀ y ∈ s,
          FloorConnected nodes E2 x y)) →
      B ≠ [] →
      (∀ x ∈ B, (getNode nodes x).floor = f) →
      edgeExtends E0 E →
      (∀ E2, edgeExtends E E2 → ∀ x ∈ B, ∀ y ∈ B,
        FloorConnected nodes E2 x y) →
      edgeExtends E (stitchFold nodes subsets (B, E)).2 ∧
      (∀ x ∈ B, x ∈ (stitchFold nodes subsets (B, E)).1) ∧
      (∀ s ∈ subsets, ∀ x ∈ s, x ∈ (stitchFold nodes subsets (B, E)).1) ∧
      (∀ x ∈ (stitchFold nodes subsets (B, E)).1,
        ∀ y ∈ (stitchFold nodes subsets (B, E)).1,
          FloorConnected nodes (stitchFold nodes subsets (B, E)).2 x y)
  | [], B, E => by
    intro hsub hBne hBfl hE hBconn
    refine ⟨fun k hk => hk, fun x hx => hx, ?_, ?_⟩
    · intro s hs
      cases hs
    · exact hBconn E (fun k hk => hk)
  | s :: rest, B, E => by
    intro hsub hBne hBfl hE hBconn
    obtain ⟨hsne, hsfl, hsconn⟩ := hsub s (List.mem_cons_self _ _)
    rcases bestPair_spec nodes B s hBne hsne with
      ⟨d, a0, b0, hbp, ha0, hb0, hd, hmin⟩
    have hstep : stitchFold nodes (s :: rest) (B, E)
        = stitchFold nodes rest
            (B ++ s, add_edge E a0 b0 (euclid nodes a0 b0) true) := by
      rw [stitchFold_cons]
      simp only [hbp]
    rw [hstep]
    have hext1 : edgeExtends E (add_edge E a0 b0 (euclid nodes a0 b0) true) :=
      edgeExtends_add_edge E a0 b0 _ _
    have hB'ne : B ++ s ≠ [] := by
      intro h0
      rw [List.append_eq_nil] at h0
      exact hBne h0.1
    have hB'fl : ∀ x ∈ B ++ s, (getNode nodes x).floor = f := by
      intro x hx
      rcases List.mem_append.mp hx with h | h
      · exact hBfl x h
      · exact hsfl x h
    have hE' : edgeExtends E0 (add_edge E a0 b0 (euclid nodes a0 b0) true) :=
      edgeExtends_trans E0 E _ hE hext1
    have hB'conn : ∀ E2,
        edgeExtends (add_edge E a0 b0 (euclid nodes a0 b0) true) E2 →
        ∀ x ∈ B ++ s, ∀ y ∈ B ++ s, FloorConnected nodes E2 x y := by
      intro E2 hx2 x hx y hy
      have hEE2 : edgeExtends E E2 := edgeExtends_trans E _ E2 hext1 hx2
      have hE0E2 : edgeExtends E0 E2 := edgeExtends_trans E0 E E2 hE hEE2
      have hab : FloorConnected nodes E2 a0 b0 := by
        refine Relation.ReflTransGen.single ⟨?_, ?_⟩
        · unfold hasEdge
          apply hx2
          exact lookupEdge_add_edge_self E a0 b0 _ _
        · rw [hBfl a0 ha0, hsfl b0 hb0]
      rcases List.mem_append.mp hx with hxB | hxs <;>
        rcases List.mem_append.mp hy with hyB | hys
      · exact hBconn E2 hEE2 x hxB y hyB
      · exact Relation.ReflTransGen.trans (hBconn E2 hEE2 x hxB a0 ha0)
          (Relation.ReflTransGen.trans hab (hsconn E2 hE0E2 b0 hb0 y hys))
      · exact Relation.ReflTransGen.trans (hsconn E2 hE0E2 x hxs b0 hb0)
          (Relation.ReflTransGen.trans
            (floorConnected_symm nodes E2 a0 b0 hab)
            (hBconn E2 hEE2 a0 ha0 y hyB))
      · exact hsconn E2 hE0E2 x hxs y hys
    have hrec := stitchFold_conn nodes f E0 rest (B ++ s)
      (add_edge E a0 b0 (euclid nodes a0 b0) true)
      (fun s2 hs2 => hsub s2 (List.mem_cons_of_mem _ hs2))
      hB'ne hB'fl hE' hB'conn
    obtain ⟨r1, r2, r3, r4⟩ := hrec
    refine ⟨edgeExtends_trans E _ _ hext1 r1, ?_, ?_, r4⟩
    · intro x hx
      exact r2 x (List.mem_append_left _ hx)
    · intro s2 hs2 x hx
      rcases List.mem_cons.mp hs2 with rfl | hs3
      · exact r2 x (List.mem_append_right _ hx)
      · exact r3 s2 hs3 x hx

/-- **C3**: when every listed node lies on one floor and the edge dictionary
is canonically keyed (both invariants of the calling script), the
connectivity-repair pass leaves every two listed nodes connected through
floor-local edges; each component merge performs exactly one edge insertion,
taken at a minimum-distance pair between the accumulated base and the new
component's representatives (first such pair on ties); and a component's
representatives are exactly its corridor members, falling back to the whole
component exactly when it contains no corridor. -/
theorem connect_components_repair (nodes : List Node) (edges : EdgeList)
    (floor_nodes : List String) (f : String)
    (hfl : ∀ u ∈ floor_nodes, (getNode nodes u).floor = f)
    (hcanon : ∀ e ∈ edges, canonKey e.1.1 e.1.2 = e.1) :
    (∀ u ∈ floor_nodes, ∀ v ∈ floor_nodes,
      FloorConnected nodes (connect_components floor_nodes edges nodes) u v) ∧
    (∀ (base subset : List String) (E : EdgeList), base ≠ [] → subset ≠ [] →
      ∃ d a b, bestPair nodes base subset = some (d, a, b) ∧ a ∈ base ∧
        b ∈ subset ∧ d = euclid nodes a b ∧
        (∀ a2 ∈ base, ∀ b2 ∈ subset, d ≤ euclid nodes a2 b2) ∧
        stitchFold nodes [subset] (base, E)
          = (base ++ subset, add_edge E a b d true)) ∧
    (∀ corridors comp : List String,
      ((∃ x ∈ comp, x ∈ corridors) →
        ∀ y ∈ compReps corridors comp, y ∈ corridors) ∧
      ((∀ x ∈ comp, x ∉ corridors) → compReps corridors comp = comp)) := by
  refine ⟨?_, ?_, fun corridors comp => compReps_pref corridors comp⟩
  · intro u hu v hv
    have hbridge : ∀ E2, edgeExtends edges E2 → ∀ x y,
        Reach (buildAdj edges nodes) x y → FloorConnected nodes E2 x y :=
      fun E2 h2 => reach_floorConnected nodes edges E2 hcanon h2
    have hcover : ∀ w ∈ floor_nodes,
        ∃ c ∈ computeComponents (buildAdj edges nodes) floor_nodes, w ∈ c :=
      computeComponentsGo_cover (buildAdj edges nodes) floor_nodes.length
        floor_nodes (le_refl _)
    have hcomps : ∀ c ∈ computeComponents (buildAdj edges nodes) floor_nodes,
        ∃ s, s ∈ floor_nodes ∧ s ∈ c ∧
          ∀ x ∈ c, Reach (buildAdj edges nodes) s x :=
      computeComponentsGo_comp (buildAdj edges nodes) floor_nodes.length
        floor_nodes
    have hcompPkg : ∀ c ∈ computeComponents (buildAdj edges nodes) floor_nodes,
        c ≠ [] ∧ (∀ x ∈ c, (getNode nodes x).floor = f) ∧
        (∀ E2, edgeExtends edges E2 → ∀ x ∈ c, ∀ y ∈ c,
          FloorConnected nodes E2 x y) := by
      intro c hc
      rcases hcomps c hc with ⟨s, hsl, hsc, hreach⟩
      refine ⟨List.ne_nil_of_mem hsc, ?_, ?_⟩
      · intro x hx
        exact reach_floor nodes edges f s x (hreach x hx) (hfl s hsl)
      · intro E2 h2 x hx y hy
        exact Relation.ReflTransGen.trans
          (floorConnected_symm nodes E2 s x (hbridge E2 h2 s x (hreach x hx)))
          (hbridge E2 h2 s y (hreach y hy))
    have hrepPkg : ∀ c ∈ computeComponents (buildAdj edges nodes) floor_nodes,
        ∀ corr : List String,
        compReps corr c ≠ [] ∧
        (∀ x ∈ compReps corr c, (getNode nodes x).floor = f) ∧
        (∀ E2, edgeExtends edges E2 →
          ∀ x ∈ compReps corr c, ∀ y ∈ compReps corr c,
            FloorConnected nodes E2 x y) := by
      intro c hc corr
      rcases hcompPkg c hc with ⟨hne, hflc, hconn⟩
      exact ⟨compReps_ne_nil corr c hne,
        fun x hx => hflc x (compReps_subset corr c x hx),
        fun E2 h2 x hx y hy => hconn E2 h2 x (compReps_subset corr c x hx)
          y (compReps_subset corr c y hy)⟩
    unfold connect_components
    by_cases hle :
        (computeComponents (buildAdj edges nodes) floor_nodes).length ≤ 1
    · rw [if_pos hle]
      rcases hcover u hu with ⟨cu, hcu, hucu⟩
      rcases hcover v hv with ⟨cv, hcv, hvcv⟩
      have hcueq : cu = cv := by
        cases hcs : computeComponents (buildAdj edges nodes) floor_nodes with
        | nil =>
          rw [hcs] at hcu
          cases hcu
        | cons c0 cs0 =>
          rw [hcs] at hle hcu hcv
          simp only [List.length_cons] at hle
          have h0 : cs0 = [] := List.length_eq_zero.mp (by omega)
          subst h0
          rw [List.mem_singleton] at hcu hcv
          rw [hcu, hcv]
      rcases hcompPkg cu hcu with ⟨-, -, hconn⟩
      exact hconn edges (fun k hk => hk) u hucu v (hcueq ▸ hvcv)
    · rw [if_neg hle]
      cases hcs : computeComponents (buildAdj edges nodes) floor_nodes with
      | nil =>
        rw [hcs] at hle
        exact absurd (by simp) hle
      | cons c0 ctail =>
        have hc0 : c0 ∈ computeComponents (buildAdj edges nodes) floor_nodes := by
          rw [hcs]
          exact List.mem_cons_self _ _
        have big := stitchFold_conn nodes f edges
          (ctail.map (compReps (floor_nodes.filter
            (fun n => decide ((getNode nodes n).type = "corridor")))))
          (compReps (floor_nodes.filter
            (fun n => decide ((getNode nodes n).type = "corridor"))) c0)
          edges
          (by
            intro s hs
            rcases List.mem_map.mp hs with ⟨c, hcmem, rfl⟩
            have hcin : c ∈ computeComponents (buildAdj edges nodes)
                floor_nodes := by
              rw [hcs]
              exact List.mem_cons_of_mem _ hcmem
            exact hrepPkg c hcin _)
          (hrepPkg c0 hc0 _).1
          (hrepPkg c0 hc0 _).2.1
          (fun k hk => hk)
          (hrepPkg c0 hc0 _).2.2
        obtain ⟨r1, r2, r3, r4⟩ := big
        have hfind : ∀ c, c ∈ computeComponents (buildAdj edges nodes)
              floor_nodes → ∀ w, w ∈ c →
            ∃ ρ, ρ ∈ (stitchFold nodes
                (ctail.map (compReps (floor_nodes.filter
                  (fun n => decide ((getNode nodes n).type = "corridor")))))
                (compReps (floor_nodes.filter
                  (fun n => decide ((getNode nodes n).type = "corridor"))) c0,
                  edges)).1 ∧
              FloorConnected nodes (stitchFold nodes
                (ctail.map (compReps (floor_nodes.filter
                  (fun n => decide ((getNode nodes n).type = "corridor")))))
                (compReps (floor_nodes.filter
                  (fun n => decide ((getNode nodes n).type = "corridor"))) c0,
                  edges)).2 w ρ := by
          intro c hc w hw
          rcases hrepPkg c hc (floor_nodes.filter
            (fun n => decide ((getNode nodes n).type = "corridor"))) with
            ⟨hne, -, -⟩
          rcases hcompPkg c hc with ⟨-, -, hconnC⟩
          rcases List.exists_mem_of_ne_nil _ hne with ⟨ρ, hρ⟩
          have hρfin : ρ ∈ (stitchFold nodes
              (ctail.map (compReps (floor_nodes.filter
                (fun n => decide ((getNode nodes n).type = "corridor")))))
              (compReps (floor_nodes.filter
                (fun n => decide ((getNode nodes n).type = "corridor"))) c0,
                edges)).1 := by
            rw [hcs] at hc
            rcases List.mem_cons.mp hc with rfl | hctail
            · exact r2 ρ hρ
            · exact r3 _ (List.mem_map_of_mem _ hctail) ρ hρ
          refine ⟨ρ, hρfin, ?_⟩
          exact hconnC _ r1 w hw ρ
            (compReps_subset _ c ρ hρ)
        rcases hcover u hu with ⟨cu, hcu, hucu⟩
        rcases hcover v hv with ⟨cv, hcv, hvcv⟩
        rcases hfind cu hcu u hucu with ⟨pu, hpu, hupu⟩
        rcases hfind cv hcv v hvcv with ⟨pv, hpv, hvpv⟩
        exact Relation.ReflTransGen.trans hupu
          (Relation.ReflTransGen.trans (r4 pu hpu pv hpv)
            (floorConnected_symm nodes _ v pv hvpv))
  · intro base subset E hbne hsne
    rcases bestPair_spec nodes base subset hbne hsne with
      ⟨d, a, b, hbp, ha, hb, hd, hmin⟩
    refine ⟨d, a, b, hbp, ha, hb, hd, hmin, ?_⟩
    rw [stitchFold_cons, stitchFold_nil]
    simp only [hbp, hd]

/-- Witness for **C3** on a two-node floor (one room, one corridor, no edges
yet, hence two singleton components): the hypotheses hold and the repair pass
connects the floor. -/
theorem connect_components_repair_witness :
    (∀ u ∈ ["a", "b"],
      (getNode [⟨"a", "G", "room", 0, 0⟩, ⟨"b", "G", "corridor", 1, 0⟩]
        u).floor = "G") ∧
    (∀ e ∈ ([] : EdgeList), canonKey e.1.1 e.1.2 = e.1) ∧
    (∀ u ∈ ["a", "b"], ∀ v ∈ ["a", "b"],
      FloorConnected [⟨"a", "G", "room", 0, 0⟩, ⟨"b", "G", "corridor", 1, 0⟩]
        (connect_components ["a", "b"] []
          [⟨"a", "G", "room", 0, 0⟩, ⟨"b", "G", "corridor", 1, 0⟩]) u v) :=
  ⟨by with_unfolding_all decide, by decide,
    (connect_components_repair
      [⟨"a", "G", "room", 0, 0⟩, ⟨"b", "G", "corridor", 1, 0⟩] [] ["a", "b"]
      "G" (by with_unfolding_all decide) (by decide)).1⟩

end SchoolNav
